import Mathlib

/-!
Shallow embedding of the `extreme_xml_parse` recursive-descent XML parser
(`src/lib.rs`).  The input is modelled as a `List Char` (the Rust code takes
`&[char]`), positions are `Nat` indices into that list, and every parse
function is a pure function of `(input, start offset)`, as in the source.

Rust `String` values built by the parser are modelled as `List Char`; the
Rust `String::len` (UTF-8 byte count) is modelled by `strLen`, which sums
the UTF-8 encoded width of each scalar value.

Rust `Result<T, XmlError>` is modelled by `Except XmlError T` for functions
that always terminate and never panic.  Functions whose Rust originals can
panic (out-of-bounds slicing `&text[start..]`, `unimplemented!()`,
`unreachable!()`) or that contain loops / recursion whose termination is a
claim under study return `PStep T`, which adds a `panic` outcome and a
`nofuel` outcome (the function is given explicit fuel; `nofuel` means the
fuel was exhausted before the computation finished).
-/

namespace Xml

/-- Input and parser-built strings: sequences of Unicode scalar values. -/
abbrev Str := List Char

/-- UTF-8 encoded byte width of one Unicode scalar value (Rust `char::len_utf8`). -/
def utf8Len (c : Char) : Nat :=
  if c.toNat < 0x80 then 1
  else if c.toNat < 0x800 then 2
  else if c.toNat < 0x10000 then 3
  else 4

/-- Rust `String::len` of a string holding these scalar values: total UTF-8 byte count. -/
def strLen (s : Str) : Nat := (s.map utf8Len).sum

/-- Rust `needle_slice.starts_with(&needle)` on char slices. -/
def startsWith : Str → Str → Bool
  | [], _ => true
  | _ :: _, [] => false
  | a :: as_, b :: bs => a == b && startsWith as_ bs

/-- `hasSeq pat l` holds iff `pat` occurs as a contiguous substring of `l`. -/
def hasSeq (pat : Str) : Str → Bool
  | [] => startsWith pat []
  | c :: rest => startsWith pat (c :: rest) || hasSeq pat rest

/-- The error taxonomy returned by every production (`enum XmlError` in `src/lib.rs`). -/
inductive XmlError where
  | BadChar (c : Char)
  | MaxRecurDepth (d : Nat)
  | TextEnd
  | NoValidVariant
  | IllegalSubstr
  | ReservedNameXml
  | MismatchedTags (startName : Str) (endName : Str)
  | BadCDATAStart
  | NoData
  | BadXDeclStart
  | KeywordMatchFail
deriving DecidableEq

/-- Result of an embedded parse step.  `ok`/`err` model Rust `Ok`/`Err`;
`panic` models a Rust panic (`unimplemented!()`, `unreachable!()`, or an
out-of-bounds slice `&text[start..]` with `start > text.len()`); `nofuel`
means the explicit fuel ran out before the modelled loop/recursion finished. -/
inductive PStep (α : Type) where
  | ok (a : α)
  | err (e : XmlError)
  | panic
  | nofuel
deriving DecidableEq

/- ===== Parse-tree node types (structs at the bottom of src/lib.rs). ===== -/

/-- `struct Name(String)`. -/
structure Name where
  s : Str
deriving DecidableEq

/-- `struct Ws { start, text }`. -/
structure Ws where
  start : Nat
  text : Str
deriving DecidableEq

/-- `struct Comment { start, text }`. -/
structure Comment where
  start : Nat
  text : Str
deriving DecidableEq

/-- `struct PITarget { name }`. -/
structure PITarget where
  name : Name
deriving DecidableEq

/-- `struct ProcInstr { start, target, space, arg }`. -/
structure ProcInstr where
  start : Nat
  target : PITarget
  space : Option Ws
  arg : Option Str
deriving DecidableEq

/-- `struct CharData { start, text }`. -/
structure CharData where
  start : Nat
  text : Str
deriving DecidableEq

/-- `struct CDSect { start, text }`. -/
structure CDSect where
  start : Nat
  text : Str
deriving DecidableEq

/-- `enum Reference { EntityRef(Name), CharRef(String) }`. -/
inductive Reference where
  | EntityRef (name : Name)
  | CharRef (s : Str)
deriving DecidableEq

/-- `Reference::text_len` (delimiters included; `len()` readings are byte counts). -/
def Reference.text_len : Reference → Nat
  | .EntityRef name => strLen name.s + 2
  | .CharRef s => strLen s + 3

/-- `enum AttValueItem { Text(String), Reference(Reference) }`. -/
inductive AttValueItem where
  | Text (s : Str)
  | Reference (r : Reference)
deriving DecidableEq

/-- `AttValueItem::text_len`. -/
def AttValueItem.text_len : AttValueItem → Nat
  | .Text s => strLen s
  | .Reference r => r.text_len

/-- `struct AttValue { start, items }`. -/
structure AttValue where
  start : Nat
  items : List AttValueItem
deriving DecidableEq

/-- `struct Attribute { start, end, name, value }` (`end` field renamed `endPos`). -/
structure Attribute where
  start : Nat
  endPos : Nat
  name : Name
  value : AttValue
deriving DecidableEq

/-- `struct STag { start, end, name, attribs }`. -/
structure STag where
  start : Nat
  endPos : Nat
  name : Name
  attribs : List Attribute
deriving DecidableEq

/-- `struct ETag { start, end, name }`. -/
structure ETag where
  start : Nat
  endPos : Nat
  name : Name
deriving DecidableEq

/-- `struct EmptyElem { start, end, name, attribs }`. -/
structure EmptyElem where
  start : Nat
  endPos : Nat
  name : Name
  attribs : List Attribute
deriving DecidableEq

mutual
/-- `enum Elem { Empty(EmptyElem), Full(FullElem) }`. -/
inductive Elem where
  | Empty (e : EmptyElem)
  | Full (f : FullElem)

/-- `struct FullElem { start: STag, content: Option<Content>, end: ETag }`. -/
inductive FullElem where
  | mk (stag : STag) (content : Option Content) (etag : ETag)

/-- `struct Content { start, items }`. -/
inductive Content where
  | mk (start : Nat) (items : List ContentItem)

/-- `enum ContentItem` (the `Box` around nested elements is irrelevant here). -/
inductive ContentItem where
  | Elem (e : Elem)
  | Reference (start : Nat) (reference : Reference)
  | ProcInstr (pi : ProcInstr)
  | Comment (c : Comment)
  | CharData (cd : CharData)
  | CDSect (cds : CDSect)
end

def FullElem.stag : FullElem → STag
  | .mk s _ _ => s

def FullElem.content : FullElem → Option Content
  | .mk _ c _ => c

def FullElem.etag : FullElem → ETag
  | .mk _ _ e => e

def Content.start : Content → Nat
  | .mk s _ => s

def Content.items : Content → List ContentItem
  | .mk _ l => l

/-- `struct VersionInfo { start, end, ver_num: f32 }`.  The numeric value is
kept as the exact rational value of the accepted numeral; see `f32GeTwo` for
how the single comparison the parser performs on it is modelled. -/
structure VersionInfo where
  start : Nat
  endPos : Nat
  ver_num : ℚ
deriving DecidableEq

/-- `struct Encoding { start, end, enc_name }`. -/
structure Encoding where
  start : Nat
  endPos : Nat
  enc_name : Str
deriving DecidableEq

/-- `struct SDDecl { start, end, is_standalone }`. -/
structure SDDecl where
  start : Nat
  endPos : Nat
  is_standalone : Bool
deriving DecidableEq

/-- `struct XmlDecl { start, end, version, encoding, standalone }`. -/
structure XmlDecl where
  start : Nat
  endPos : Nat
  version : VersionInfo
  encoding : Option Encoding
  standalone : Option SDDecl
deriving DecidableEq

/-- `enum ExternalID`. -/
inductive ExternalID where
  | System (start : Nat) (endPos : Nat) (sys_lit : Str)
  | Public (start : Nat) (endPos : Nat) (pub_lit : Str) (sys_lit : Str)
deriving DecidableEq

/-- `struct PEReference(Name)`. -/
structure PEReference where
  name : Name
deriving DecidableEq

/-- `struct ElemDecl;` — never constructed (its parser is `unimplemented!()`). -/
inductive ElemDecl where

/-- `struct AttlistDecl;` — never constructed. -/
inductive AttlistDecl where

/-- `enum EntityDecl {}` — uninhabited in the source as well. -/
inductive EntityDecl where

/-- `struct NotationDecl;` — never constructed. -/
inductive NotationDecl where

/-- `enum IntSubsetItem`. -/
inductive IntSubsetItem where
  | Blank (ws : Ws)
  | PEReference (p : PEReference)
  | ElemDecl (d : ElemDecl)
  | AttlistDecl (d : AttlistDecl)
  | EntityDecl (d : EntityDecl)
  | NotationDecl (d : NotationDecl)
  | ProcInstr (pi : ProcInstr)
  | Comment (c : Comment)

/-- `struct IntSubset { items }`. -/
structure IntSubset where
  items : List IntSubsetItem

/-- `struct DoctypeDecl { start, end, name, ext_id, int_subset }`. -/
structure DoctypeDecl where
  start : Nat
  endPos : Nat
  name : Name
  ext_id : Option ExternalID
  int_subset : Option IntSubset

/-- `enum Misc`. -/
inductive Misc where
  | Ws (ws : Ws)
  | Comment (c : Comment)
  | ProcInstr (pi : ProcInstr)
deriving DecidableEq

/-- `struct Prolog { xml_decl, doctype_decl, miscs }`. -/
structure Prolog where
  xml_decl : Option XmlDecl
  doctype_decl : Option DoctypeDecl
  miscs : List Misc

/-- `struct Doc { prolog, elem, tail }`. -/
structure Doc where
  prolog : Prolog
  elem : Elem
  tail : List Misc

/-- `struct EqHelper { start, end }`. -/
structure EqHelper where
  start : Nat
  endPos : Nat
deriving DecidableEq

/- ===== The span protocol: `trait Ends { fn get_endpos(&self) -> usize }`. ===== -/

/-- `impl Ends for Ws`: `self.start + self.text.len()`. -/
def Ws.get_endpos (w : Ws) : Nat := w.start + strLen w.text

/-- `impl Ends for Comment`: `self.start + self.text.len() + "<!--".len() + "-->".len()`. -/
def Comment.get_endpos (c : Comment) : Nat := c.start + strLen c.text + 4 + 3

/-- `impl Ends for ProcInstr`. -/
def ProcInstr.get_endpos (p : ProcInstr) : Nat :=
  p.start + strLen p.target.name.s + 4
    + (match p.space with | some ws => strLen ws.text | none => 0)
    + (match p.arg with | some s => strLen s | none => 0)

/-- `impl Ends for Attribute`: stored `end`. -/
def Attribute.get_endpos (a : Attribute) : Nat := a.endPos

/-- `impl Ends for AttValue`: start plus item text lengths plus the two quotes. -/
def AttValue.get_endpos (v : AttValue) : Nat :=
  v.start + (v.items.map AttValueItem.text_len).sum + 2

/-- `impl Ends for EmptyElem`: stored `end`. -/
def EmptyElem.get_endpos (e : EmptyElem) : Nat := e.endPos

/-- `impl Ends for STag`: stored `end`. -/
def STag.get_endpos (s : STag) : Nat := s.endPos

/-- `impl Ends for ETag`: stored `end`. -/
def ETag.get_endpos (e : ETag) : Nat := e.endPos

/-- `impl Ends for CharData`: `self.start + self.text.len()`. -/
def CharData.get_endpos (c : CharData) : Nat := c.start + strLen c.text

/-- `impl Ends for CDSect`: start + open delimiter + text + close delimiter. -/
def CDSect.get_endpos (c : CDSect) : Nat := c.start + 9 + strLen c.text + 3

/-- `impl Ends for FullElem`: `self.end.get_endpos()`, i.e. the end tag's stored `end`. -/
def FullElem.get_endpos (f : FullElem) : Nat := f.etag.endPos

/-- `impl Ends for Elem`. -/
def Elem.get_endpos : Elem → Nat
  | .Empty e => e.get_endpos
  | .Full f => f.get_endpos

/-- `impl Ends for ContentItem`. -/
def ContentItem.get_endpos : ContentItem → Nat
  | .Elem e => e.get_endpos
  | .Reference start reference => start + reference.text_len
  | .ProcInstr pi => pi.get_endpos
  | .Comment c => c.get_endpos
  | .CharData cd => cd.get_endpos
  | .CDSect cds => cds.get_endpos

/-- `impl Ends for Content`: end of last item, or own start when empty. -/
def Content.get_endpos (c : Content) : Nat :=
  match c.items.getLast? with
  | some item => item.get_endpos
  | none => c.start

/-- `impl Ends for Misc`. -/
def Misc.get_endpos : Misc → Nat
  | .Ws ws => ws.get_endpos
  | .Comment c => c.get_endpos
  | .ProcInstr pi => pi.get_endpos

/-- `impl Ends for Prolog` in the source is literally `fn get_endpos(&self) -> usize { 0usize }`:
it returns `0` for every prolog, whatever was consumed. -/
def Prolog.get_endpos (_p : Prolog) : Nat := 0

/-- `impl Ends for XmlDecl`: stored `end`. -/
def XmlDecl.get_endpos (x : XmlDecl) : Nat := x.endPos

/-- `impl Ends for VersionInfo`: stored `end`. -/
def VersionInfo.get_endpos (v : VersionInfo) : Nat := v.endPos

/-- `impl Ends for Encoding`: stored `end`. -/
def Encoding.get_endpos (e : Encoding) : Nat := e.endPos

/-- `impl Ends for SDDecl`: stored `end`. -/
def SDDecl.get_endpos (s : SDDecl) : Nat := s.endPos

/-- `impl Ends for ExternalID`: stored `end` of either variant. -/
def ExternalID.get_endpos : ExternalID → Nat
  | .System _ e _ => e
  | .Public _ e _ _ => e

/-- `impl Ends for IntSubsetItem` is `unimplemented!()`: calling it panics. -/
def IntSubsetItem.get_endpos (_i : IntSubsetItem) : Option Nat := none

/-- `impl Ends for IntSubset` is `unimplemented!()`: calling it panics. -/
def IntSubset.get_endpos (_i : IntSubset) : Option Nat := none

/-- `impl Ends for DoctypeDecl`: stored `end`. -/
def DoctypeDecl.get_endpos (d : DoctypeDecl) : Nat := d.endPos

/- ===== Lexical primitives. ===== -/

/-- The single-quote character `'`. -/
def sq : Char := Char.ofNat 39

/-- The double-quote character `"`. -/
def dq : Char := Char.ofNat 34

/-- Whitespace characters accepted by `parse_ws`: space, tab, LF, CR. -/
def isWsChar (c : Char) : Bool :=
  c == ' ' || c == '\t' || c == '\n' || c == '\r'

/-- `fn is_namestart(c: char) -> bool`. -/
def is_namestart (c : Char) : Bool :=
  let n := c.toNat
  c == ':' || c == '_' || (0x61 ≤ n && n ≤ 0x7A) || (0x41 ≤ n && n ≤ 0x5A) ||
  (0xC0 ≤ n && n ≤ 0xD6) || (0xD8 ≤ n && n ≤ 0xF6) || (0xF8 ≤ n && n ≤ 0x2FF) ||
  (0x370 ≤ n && n ≤ 0x37D) || (0x37F ≤ n && n ≤ 0x1FFF) || (0x200C ≤ n && n ≤ 0x200D) ||
  (0x2070 ≤ n && n ≤ 0x218F) || (0x2C00 ≤ n && n ≤ 0x2FEF) || (0x3001 ≤ n && n ≤ 0xD7FF) ||
  (0xF900 ≤ n && n ≤ 0xFDCF) || (0xFDF0 ≤ n && n ≤ 0xFFFD) || (0x10000 ≤ n && n ≤ 0xEFFFF)

/-- `fn is_namec(c: char) -> bool`. -/
def is_namec (c : Char) : Bool :=
  let n := c.toNat
  is_namestart c || c == '-' || c == '.' || (0x30 ≤ n && n ≤ 0x39) ||
  n == 0xB7 || (0x300 ≤ n && n ≤ 0x36F) || (0x203F ≤ n && n ≤ 0x2040)

/-- Hex-digit class used by the character-reference scanner: `0-9 | a-f | A-F`. -/
def isHexDigitChar (c : Char) : Bool :=
  let n := c.toNat
  (0x30 ≤ n && n ≤ 0x39) || (0x61 ≤ n && n ≤ 0x66) || (0x41 ≤ n && n ≤ 0x46)

/-- ASCII letter, as used by the encoding-name scanner. -/
def isAsciiLetter (c : Char) : Bool :=
  let n := c.toNat
  (0x41 ≤ n && n ≤ 0x5A) || (0x61 ≤ n && n ≤ 0x7A)

/-- ASCII digit. -/
def isAsciiDigit (c : Char) : Bool :=
  let n := c.toNat
  0x30 ≤ n && n ≤ 0x39

/- ===== Simple scanning productions (always terminate, never panic). ===== -/

/-- `fn parse_ws`: a maximal non-empty run of space/tab/LF/CR starting at `start`. -/
def parse_ws (text : Str) (start : Nat) : Except XmlError Ws :=
  match text[start]? with
  | none => .error .TextEnd
  | some char0 =>
    if isWsChar char0 then
      .ok ⟨start, char0 :: (text.drop (start+1)).takeWhile isWsChar⟩
    else .error (.BadChar char0)

/-- `fn parse_name`: one name-start char, then a maximal run of name chars. -/
def parse_name (text : Str) (start : Nat) : Except XmlError Name :=
  match text[start]? with
  | none => .error .TextEnd
  | some c0 =>
    if is_namestart c0 then
      .ok ⟨c0 :: (text.drop (start+1)).takeWhile is_namec⟩
    else .error (.BadChar c0)

/-- `fn parse_eq`: optional whitespace, `=`, optional whitespace. -/
def parse_eq (text : Str) (start : Nat) : Except XmlError EqHelper :=
  let pos1 := match parse_ws text start with
    | .ok ws => ws.get_endpos
    | .error _ => start
  match text[pos1]? with
  | none => .error .TextEnd
  | some c1 =>
    if c1 == '=' then
      let pos2 := match parse_ws text (pos1+1) with
        | .ok ws => ws.get_endpos
        | .error _ => pos1 + 1
      .ok ⟨start, pos2⟩
    else .error (.BadChar c1)

/-- The body scan of `parse_comment` (the `for c in &text[(start+4)..]` loop):
`buf` is the accumulated text, `count` the number of consecutive `-` seen. -/
def commentLoop : Str → Str → Nat → Except XmlError Str
  | [], _, _ => .error .TextEnd
  | c :: rest, buf, count =>
    if c == '-' then commentLoop rest (buf ++ [c]) (count+1)
    else if c == '>' then
      if count == 2 then
        match buf.getLast? with
        | none => .error .TextEnd
        | some c1 =>
          if c1 == '-' then
            match buf.dropLast.getLast? with
            | none => .error .TextEnd
            | some c2 =>
              if c2 == '-' then .ok buf.dropLast.dropLast
              else .error (.BadChar c2)
          else .error (.BadChar c1)
      else if count > 2 then .error .IllegalSubstr
      else commentLoop rest (buf ++ [c]) 0
    else if count ≥ 2 then .error .IllegalSubstr
    else commentLoop rest (buf ++ [c]) 0

/-- `fn parse_comment`. -/
def parse_comment (text : Str) (start : Nat) : Except XmlError Comment :=
  match text[start]? with
  | none => .error .TextEnd
  | some char0 =>
    if char0 == '<' then
      match text[start+1]? with
      | none => .error .TextEnd
      | some char1 =>
        if char1 == '!' then
          match text[start+2]? with
          | none => .error .TextEnd
          | some char2 =>
            match text[start+3]? with
            | none => .error .TextEnd
            | some char3 =>
              if char2 == '-' && char3 == '-' then
                match commentLoop (text.drop (start+4)) [] 0 with
                | .ok buf => .ok ⟨start, buf⟩
                | .error e => .error e
              else if char2 == '-' then .error (.BadChar char3)
              else .error (.BadChar char2)
        else .error (.BadChar char1)
    else .error (.BadChar char0)

/-- `fn parse_pitarget`: a Name that must not equal `xml` case-insensitively. -/
def parse_pitarget (text : Str) (start : Nat) : Except XmlError PITarget :=
  match parse_name text start with
  | .error e => .error e
  | .ok name =>
    if name.s.map Char.toLower == ['x', 'm', 'l'] then .error .ReservedNameXml
    else .ok ⟨name⟩

/-- The argument scan of `parse_pi` (`seen` tracks a pending `?`). -/
def piLoop : Str → Str → Bool → Except XmlError Str
  | [], _, _ => .error .TextEnd
  | c :: rest, buf, seen =>
    if c == '?' then piLoop rest (buf ++ [c]) true
    else if c == '>' then
      if seen then
        match buf.getLast? with
        | none => .error .TextEnd
        | some last =>
          if last == '?' then .ok buf.dropLast
          else .error (.BadChar last)
      else piLoop rest (buf ++ [c]) seen
    else piLoop rest (buf ++ [c]) false

/-- `fn parse_pi`. -/
def parse_pi (text : Str) (start : Nat) : Except XmlError ProcInstr :=
  match text[start]? with
  | none => .error .TextEnd
  | some char0 =>
    if char0 == '<' then
      match text[start+1]? with
      | none => .error .TextEnd
      | some char1 =>
        if char1 == '?' then
          match parse_pitarget text (start+2) with
          | .error e => .error e
          | .ok target =>
            let target_end := start + strLen target.name.s + 2
            match parse_ws text target_end with
            | .ok ws =>
              (match piLoop (text.drop ws.get_endpos) [] false with
               | .ok buf => .ok ⟨start, target, some ws, some buf⟩
               | .error e => .error e)
            | .error (.BadChar c) =>
              if c == '?' then
                match text[target_end+1]? with
                | none => .error .TextEnd
                | some charlast =>
                  if charlast == '>' then .ok ⟨start, target, none, none⟩
                  else .error (.BadChar charlast)
              else .error (.BadChar c)
            | .error e => .error e
        else .error (.BadChar char1)
    else .error (.BadChar char0)

/-- `fn parse_misc`: whitespace, comment, or processing instruction. -/
def parse_misc (text : Str) (start : Nat) : Except XmlError Misc :=
  match parse_ws text start with
  | .ok ws => .ok (.Ws ws)
  | .error _ =>
  match parse_comment text start with
  | .ok comment => .ok (.Comment comment)
  | .error _ =>
  match parse_pi text start with
  | .ok pi => .ok (.ProcInstr pi)
  | .error _ =>
    if (text[start]?).isNone then .error .TextEnd
    else .error .NoValidVariant

/-- The digit scan of the character-reference branch of `parse_reference`
(the `for c in &text[(start + 2)..]` loop).  Note that reaching the end of
the list returns `ok` with the digits collected so far: the source loop
simply falls out of the `for` and constructs `CharRef` without having seen
a `;`. -/
def charRefLoop : Str → Str → Bool → Except XmlError Str
  | [], buf, _ => .ok buf
  | c :: rest, buf, at_start =>
    if c == ';' then .ok buf
    else if isHexDigitChar c then charRefLoop rest (buf ++ [c]) false
    else if c == 'x' then
      if at_start then charRefLoop rest (buf ++ [c]) false
      else .error (.BadChar c)
    else .error (.BadChar c)

/-- `fn parse_reference`. -/
def parse_reference (text : Str) (start : Nat) : Except XmlError Reference :=
  match text[start]? with
  | none => .error .TextEnd
  | some c0 =>
    if c0 == '&' then
      match text[start+1]? with
      | none => .error .TextEnd
      | some c1 =>
        if c1 == '#' then
          match charRefLoop (text.drop (start+2)) [] true with
          | .ok ref_text => .ok (.CharRef ref_text)
          | .error e => .error e
        else
          match parse_name text (start+1) with
          | .error e => .error e
          | .ok name =>
            let pos := start + 1 + strLen name.s
            match text[pos]? with
            | none => .error .TextEnd
            | some c_last =>
              if c_last == ';' then .ok (.EntityRef name)
              else .error (.BadChar c_last)
    else .error (.BadChar c0)

/-- The scan of `parse_chardata`: accumulate until `<` or `&`; `count` is the
number of consecutive `]`; a `>` with `count >= 2` is the forbidden `]]>`. -/
def chardataLoop : Str → Str → Nat → Except XmlError Str
  | [], _, _ => .error .TextEnd
  | c :: rest, data, count =>
    if c == '<' || c == '&' then
      if data.length > 0 then .ok data else .error .NoData
    else if c == ']' then chardataLoop rest (data ++ [c]) (count+1)
    else if c == '>' then
      if count ≥ 2 then .error .IllegalSubstr
      else chardataLoop rest (data ++ [c]) 0
    else chardataLoop rest (data ++ [c]) 0

/-- `fn parse_chardata`. -/
def parse_chardata (text : Str) (start : Nat) : Except XmlError CharData :=
  match chardataLoop (text.drop start) [] 0 with
  | .ok data => .ok ⟨start, data⟩
  | .error e => .error e

/-- The body scan of `parse_cdsect`.  The two `unreachable!()` arms of the
source (popping from a buffer that provably ends in `]]`) are modelled as
`panic`. -/
def cdsectLoop : Str → Str → Nat → PStep Str
  | [], _, _ => .err .TextEnd
  | c :: rest, data, count =>
    if c == ']' then cdsectLoop rest (data ++ [c]) (count+1)
    else if c == '>' then
      if count ≥ 2 then
        match data.getLast? with
        | none => .panic
        | some c_ult =>
          match data.dropLast.getLast? with
          | none => .panic
          | some c_pen =>
            if c_pen == ']' then
              if c_ult == ']' then .ok data.dropLast.dropLast
              else .err (.BadChar c_ult)
            else .err (.BadChar c_pen)
      else cdsectLoop rest (data ++ [c]) 0
    else cdsectLoop rest (data ++ [c]) 0

/-- `fn parse_cdsect`.  The source slices `&text[start..]` before any bounds
check, which panics when `start > text.len()`; that case is `panic`. -/
def parse_cdsect (text : Str) (start : Nat) : PStep CDSect :=
  if start > text.length then .panic
  else if startsWith (("<![CDATA[").toList) (text.drop start) then
    match cdsectLoop (text.drop (start+9)) [] 0 with
    | .ok data => .ok ⟨start, data⟩
    | .err e => .err e
    | .panic => .panic
    | .nofuel => .nofuel
  else .err .BadCDATAStart

/-- The scan of `parse_syslit`: anything until the matching quote (the other
quote kind is accepted as content). -/
def syslitLoop : Str → Str → Bool → Except XmlError Str
  | [], _, _ => .error .TextEnd
  | c :: rest, arena, single =>
    if c == sq && single then .ok arena
    else if c == dq && !single then .ok arena
    else syslitLoop rest (arena ++ [c]) single

/-- `fn parse_syslit` (returns the literal's text, quotes excluded). -/
def parse_syslit (text : Str) (start : Nat) : Except XmlError Str :=
  match text[start]? with
  | none => .error .TextEnd
  | some c0 =>
    if c0 == dq || c0 == sq then syslitLoop (text.drop (start+1)) [] (c0 == sq)
    else .error (.BadChar c0)

/-- Pubid whitelist characters (besides the quotes, handled separately). -/
def pubidChar (c : Char) : Bool :=
  c == ' ' || c == '\r' || c == '\n' || isAsciiLetter c || isAsciiDigit c ||
  c == '-' || c == '(' || c == ')' || c == '+' || c == ',' || c == '.' ||
  c == '/' || c == ':' || c == '=' || c == '?' || c == ';' || c == '!' ||
  c == '*' || c == '#' || c == '@' || c == '$' || c == '_' || c == '%'

/-- The scan of `parse_pubidlit`.  Source quirk kept: a `"` inside a
single-quoted literal is neither pushed nor rejected, only skipped. -/
def pubidlitLoop : Str → Str → Bool → Except XmlError Str
  | [], _, _ => .error .TextEnd
  | c :: rest, arena, single =>
    if c == sq then
      if single then .ok arena else pubidlitLoop rest (arena ++ [c]) single
    else if c == dq then
      if !single then .ok arena else pubidlitLoop rest arena single
    else if pubidChar c then pubidlitLoop rest (arena ++ [c]) single
    else .error (.BadChar c)

/-- `fn parse_pubidlit`. -/
def parse_pubidlit (text : Str) (start : Nat) : Except XmlError Str :=
  match text[start]? with
  | none => .error .TextEnd
  | some c0 =>
    if c0 == dq || c0 == sq then pubidlitLoop (text.drop (start+1)) [] (c0 == sq)
    else .error (.BadChar c0)

/-- `fn parse_externalid`.  The source slices `&text[start..]` unchecked. -/
def parse_externalid (text : Str) (start : Nat) : PStep ExternalID :=
  if start > text.length then .panic
  else
    let subtext := text.drop start
    if startsWith (("SYSTEM").toList) subtext then
      match parse_ws text (start + 6) with
      | .error e => .err e
      | .ok spacer =>
        let syslit_start := spacer.get_endpos
        match parse_syslit text syslit_start with
        | .error e => .err e
        | .ok syslit =>
          .ok (.System start (syslit_start + strLen syslit + 2) syslit)
    else if startsWith (("PUBLIC").toList) subtext then
      match parse_ws text (start + 6) with
      | .error e => .err e
      | .ok spacer1 =>
        let pubid_start := spacer1.get_endpos
        match parse_pubidlit text pubid_start with
        | .error e => .err e
        | .ok pubid_lit =>
          let pubid_end := pubid_start + strLen pubid_lit + 2
          match parse_ws text pubid_end with
          | .error e => .err e
          | .ok spacer2 =>
            let syslit_start := spacer2.get_endpos
            match parse_syslit text syslit_start with
            | .error e => .err e
            | .ok syslit =>
              .ok (.Public start (syslit_start + strLen syslit + 2) pubid_lit syslit)
    else .err .KeywordMatchFail

/- ===== XML declaration family. ===== -/

/-- The quoted-numeral scan of `parse_version` (`q` is the opening quote,
`seen_dot` whether a `.` has been accepted already). -/
def versionLoop : Str → Char → Bool → Str → Except XmlError Str
  | [], _, _, _ => .error .TextEnd
  | c :: rest, q, seen_dot, arena =>
    if c == q then .ok arena
    else if isAsciiDigit c then versionLoop rest q seen_dot (arena ++ [c])
    else if c == '.' then
      if !seen_dot then versionLoop rest q true (arena ++ [c])
      else .error (.BadChar c)
    else .error (.BadChar c)

/-- Natural value of a digit string. -/
def digitsToNat (s : Str) : Nat := s.foldl (fun a c => 10 * a + (c.toNat - 0x30)) 0

/-- Integer-part digits of a numeral (everything before the first `.`). -/
def numeralIp (s : Str) : Str := s.takeWhile (fun c => !(c == '.'))

/-- Fractional-part digits of a numeral (everything after the first `.`). -/
def numeralFp (s : Str) : Str := (s.dropWhile (fun c => !(c == '.'))).drop 1

/-- Exact rational value of a numeral of digits with at most one `.`. -/
def numeralVal (s : Str) : ℚ :=
  (digitsToNat (numeralIp s) : ℚ) +
    (digitsToNat (numeralFp s) : ℚ) / (10 : ℚ) ^ (numeralFp s).length

/-- Models the source's `version_num >= 2.0` test, where `version_num` is
`arena.parse::<f32>().unwrap()` applied to the accepted numeral.  Rust float
parsing is correctly rounded (round-to-nearest, ties-to-even), so for a
non-negative decimal numeral the parsed `f32` is `>= 2.0` exactly when the
exact rational value is `>= 2 - 2^-24`: the largest `f32` below `2.0` is
`2 - 2^-23`; the midpoint `2 - 2^-24` is a tie and rounds to the even
significand, which is `2.0`; any value `>= 2` rounds to a float `>= 2.0`
(`2.0` is representable); values too large for `f32` give `+inf >= 2.0`.
With integer part `I`, fractional digits value `F` over `k` digits, the
numeral's value is `(I*10^k + F) / 10^k`, and the `>= 2 - 2^-24` test is the
integer inequality used here (see `f32GeTwoNumeral_iff_val`). -/
def f32GeTwoNumeral (arena : Str) : Bool :=
  let k := (numeralFp arena).length
  decide ((2 ^ 25 - 1) * 10 ^ k ≤
    2 ^ 24 * (digitsToNat (numeralIp arena) * 10 ^ k + digitsToNat (numeralFp arena)))

/-- `fn parse_version`. -/
def parse_version (text : Str) (start : Nat) : Except XmlError VersionInfo :=
  match parse_ws text start with
  | .error e => .error e
  | .ok lead_ws =>
    let pos := lead_ws.get_endpos
    if startsWith (("version").toList) (text.drop pos) then
      let pos1 := pos + 7
      let pos2 := match parse_ws text pos1 with
        | .ok ws => ws.get_endpos
        | .error _ => pos1
      match text[pos2]? with
      | none => .error .TextEnd
      | some c_eq =>
        if c_eq == '=' then
          let pos3 := pos2 + 1
          let here := match parse_ws text pos3 with
            | .ok ws => ws.get_endpos
            | .error _ => pos3
          match text[here]? with
          | none => .error .TextEnd
          | some c0 =>
            if c0 == sq || c0 == dq then
              match versionLoop (text.drop (here+1)) c0 false [] with
              | .error e => .error e
              | .ok arena =>
                -- `arena.parse::<f32>()` fails exactly for "" and "." here
                if arena == [] || arena == ['.'] then .error .KeywordMatchFail
                else if f32GeTwoNumeral arena then .error .KeywordMatchFail
                else .ok ⟨start, here + 1 + arena.length + 1, numeralVal arena⟩
            else .error (.BadChar c0)
        else .error (.BadChar c_eq)
    else .error .KeywordMatchFail

/-- The quoted-name scan of `parse_encoding`. -/
def encLoop : Str → Char → Bool → Str → Except XmlError Str
  | [], _, _, _ => .error .TextEnd
  | c :: rest, q, first, arena =>
    if c == q then .ok arena
    else if first then
      if isAsciiLetter c then encLoop rest q false (arena ++ [c])
      else .error (.BadChar c)
    else if isAsciiLetter c || isAsciiDigit c || c == '.' || c == '_' || c == '-' then
      encLoop rest q false (arena ++ [c])
    else .error (.BadChar c)

/-- `fn parse_encoding`. -/
def parse_encoding (text : Str) (start : Nat) : Except XmlError Encoding :=
  match parse_ws text start with
  | .error e => .error e
  | .ok lead_ws =>
    let pos := lead_ws.get_endpos
    if startsWith (("encoding").toList) (text.drop pos) then
      let pos1 := pos + 8
      match parse_eq text pos1 with
      | .error e => .error e
      | .ok eq =>
        let pos2 := eq.endPos
        match text[pos2]? with
        | none => .error .TextEnd
        | some c0 =>
          if c0 == dq || c0 == sq then
            match encLoop (text.drop (pos2+1)) c0 true [] with
            | .error e => .error e
            | .ok arena => .ok ⟨start, pos2 + 1 + arena.length + 1, arena⟩
          else .error (.BadChar c0)
    else .error .KeywordMatchFail

/-- `fn parse_standalone`.  The fourth token test reproduces the source bug:
it tests `subtext` (the slice at the `standalone` keyword), not `subtext2`
(the slice at the value position). -/
def parse_standalone (text : Str) (start : Nat) : Except XmlError SDDecl :=
  match parse_ws text start with
  | .error e => .error e
  | .ok lead_ws =>
    let pos := lead_ws.get_endpos
    let subtext := text.drop pos
    if startsWith (("standalone").toList) subtext then
      let pos1 := pos + 10
      match parse_eq text pos1 with
      | .error e => .error e
      | .ok eq =>
        let pos2 := eq.endPos
        let subtext2 := text.drop pos2
        if startsWith [dq, 'y', 'e', 's', dq] subtext2 then .ok ⟨start, pos2 + 5, true⟩
        else if startsWith [sq, 'y', 'e', 's', sq] subtext2 then .ok ⟨start, pos2 + 5, true⟩
        else if startsWith [dq, 'n', 'o', dq] subtext2 then .ok ⟨start, pos2 + 4, false⟩
        else if startsWith [sq, 'n', 'o', sq] subtext then .ok ⟨start, pos2 + 4, false⟩
        else .error .KeywordMatchFail
    else .error .KeywordMatchFail

/-- `fn parse_xmldecl`.  Slices `&text[start..]` unchecked. -/
def parse_xmldecl (text : Str) (start : Nat) : PStep XmlDecl :=
  if start > text.length then .panic
  else if startsWith (("<?xml").toList) (text.drop start) then
    match parse_version text (start + 5) with
    | .error e => .err e
    | .ok version =>
      let here1 := version.get_endpos
      let encPair : Option Encoding × Nat :=
        match parse_encoding text here1 with
        | .ok enc => (some enc, enc.get_endpos)
        | .error _ => (none, here1)
      let sdPair : Option SDDecl × Nat :=
        match parse_standalone text encPair.2 with
        | .ok stand => (some stand, stand.get_endpos)
        | .error _ => (none, encPair.2)
      let here4 := match parse_ws text sdPair.2 with
        | .ok ws => ws.get_endpos
        | .error _ => sdPair.2
      match text[here4]? with
      | none => .err .TextEnd
      | some c_pen =>
        if c_pen == '?' then
          match text[here4+1]? with
          | none => .err .TextEnd
          | some c_ult =>
            if c_ult == '>' then .ok ⟨start, here4 + 2, version, encPair.1, sdPair.1⟩
            else .err (.BadChar c_ult)
        else .err (.BadChar c_pen)
  else .err .BadXDeclStart

/- ===== Doctype and internal subset. ===== -/

/-- `fn parse_pereference`. -/
def parse_pereference (text : Str) (start : Nat) : Except XmlError PEReference :=
  match text[start]? with
  | none => .error .TextEnd
  | some c0 =>
    if c0 == '%' then
      match parse_name text (start+1) with
      | .error e => .error e
      | .ok name =>
        match text[start + 1 + strLen name.s]? with
        | none => .error .TextEnd
        | some c1 =>
          if c1 == ';' then .ok ⟨name⟩
          else .error (.BadChar c1)
    else .error (.BadChar c0)

/-- `fn parse_elemdecl` is `unimplemented!()`: any call panics. -/
def parse_elemdecl (_text : Str) (_start : Nat) : PStep ElemDecl := .panic

/-- `fn parse_attlistdecl` is `unimplemented!()`: any call panics. -/
def parse_attlistdecl (_text : Str) (_start : Nat) : PStep AttlistDecl := .panic

/-- `fn parse_entitydecl` is `unimplemented!()`: any call panics. -/
def parse_entitydecl (_text : Str) (_start : Nat) : PStep EntityDecl := .panic

/-- `fn parse_notationdecl` is `unimplemented!()`: any call panics. -/
def parse_notationdecl (_text : Str) (_start : Nat) : PStep NotationDecl := .panic

/-- `fn parse_int_subset_item`: ordered alternatives; every alternative from
`parse_elemdecl` on panics when evaluated. -/
def parse_int_subset_item (text : Str) (start : Nat) : PStep IntSubsetItem :=
  match parse_ws text start with
  | .ok ws => .ok (.Blank ws)
  | .error _ =>
  match parse_pereference text start with
  | .ok peref => .ok (.PEReference peref)
  | .error _ =>
  match parse_elemdecl text start with
  | .ok d => .ok (.ElemDecl d)
  | .panic => .panic
  | .nofuel => .nofuel
  | .err _ =>
  match parse_attlistdecl text start with
  | .ok d => .ok (.AttlistDecl d)
  | .panic => .panic
  | .nofuel => .nofuel
  | .err _ =>
  match parse_entitydecl text start with
  | .ok d => .ok (.EntityDecl d)
  | .panic => .panic
  | .nofuel => .nofuel
  | .err _ =>
  match parse_notationdecl text start with
  | .ok d => .ok (.NotationDecl d)
  | .panic => .panic
  | .nofuel => .nofuel
  | .err _ =>
  match parse_pi text start with
  | .ok pi => .ok (.ProcInstr pi)
  | .error _ =>
  match parse_comment text start with
  | .ok comment => .ok (.Comment comment)
  | .error _ => .err .NoValidVariant

/-- The `while let Ok(item)` loop of `parse_intsubset`; advancing uses
`item.get_endpos()`, which is `unimplemented!()` and panics. -/
def intsubsetLoop (fuel : Nat) (text : Str) (here : Nat) (items : List IntSubsetItem) :
    PStep (List IntSubsetItem) :=
  match fuel with
  | 0 => .nofuel
  | fuel+1 =>
    match parse_int_subset_item text here with
    | .ok item =>
      match item.get_endpos with
      | some e => intsubsetLoop fuel text e (items ++ [item])
      | none => .panic
    | .err _ => .ok items
    | .panic => .panic
    | .nofuel => .nofuel

/-- `fn parse_intsubset`. -/
def parse_intsubset (fuel : Nat) (text : Str) (start : Nat) : PStep IntSubset :=
  match intsubsetLoop fuel text start [] with
  | .ok items => if items.length > 0 then .ok ⟨items⟩ else .err .NoData
  | .err e => .err e
  | .panic => .panic
  | .nofuel => .nofuel

/-- `fn parse_doctype`.  Slices `&text[start..]` unchecked; on a successful
internal subset the source calls `IntSubset::get_endpos`, which panics. -/
def parse_doctype (fuel : Nat) (text : Str) (start : Nat) : PStep DoctypeDecl :=
  if start > text.length then .panic
  else if startsWith (("<!DOCTYPE").toList) (text.drop start) then
    match parse_ws text (start + 9) with
    | .error e => .err e
    | .ok spacer1 =>
      match parse_name text spacer1.get_endpos with
      | .error e => .err e
      | .ok name =>
        let here1 := spacer1.get_endpos + strLen name.s
        let here2 := match parse_ws text here1 with
          | .ok ws => ws.get_endpos
          | .error _ => here1
        let finish : Option ExternalID → Nat → PStep DoctypeDecl := fun extid here3a =>
          let here3 := match parse_ws text here3a with
            | .ok ws => ws.get_endpos
            | .error _ => here3a
          match text[here3]? with
          | none => .err .TextEnd
          | some c0 =>
            if c0 == '[' then
              let afterSubset : Option IntSubset → Nat → PStep DoctypeDecl :=
                fun intsub here4 =>
                match text[here4]? with
                | none => .err .TextEnd
                | some c1 =>
                  if c1 == ']' then
                    let here5 := match parse_ws text (here4+1) with
                      | .ok ws => ws.get_endpos
                      | .error _ => here4 + 1
                    match text[here5]? with
                    | none => .err .TextEnd
                    | some c2 =>
                      if c2 == '>' then .ok ⟨start, here5 + 1, name, extid, intsub⟩
                      else .err (.BadChar c2)
                  else .err (.BadChar c1)
              match parse_intsubset fuel text (here3+1) with
              | .ok isub =>
                (match IntSubset.get_endpos isub with
                 | some e => afterSubset (some isub) e
                 | none => .panic)
              | .err _ => afterSubset none (here3+1)
              | .panic => .panic
              | .nofuel => .nofuel
            else if c0 == '>' then .ok ⟨start, here3 + 1, name, extid, none⟩
            else .err (.BadChar c0)
        match parse_externalid text here2 with
        | .ok ex_id => finish (some ex_id) ex_id.get_endpos
        | .err _ => finish none here2
        | .panic => .panic
        | .nofuel => .nofuel
  else .err .KeywordMatchFail

/- ===== Prolog, tail, document. ===== -/

/-- The `while let Ok(misc) = parse_misc(..)` loops of `parse_prolog`. -/
def miscLoop (fuel : Nat) (text : Str) (here : Nat) (miscs : List Misc) :
    PStep (List Misc × Nat) :=
  match fuel with
  | 0 => .nofuel
  | fuel+1 =>
    match parse_misc text here with
    | .ok misc => miscLoop fuel text misc.get_endpos (miscs ++ [misc])
    | .error _ => .ok (miscs, here)

/-- `fn parse_prolog`. -/
def parse_prolog (fuel : Nat) (text : Str) (start : Nat) : PStep Prolog :=
  let afterDecl : Option XmlDecl → Nat → PStep Prolog := fun xdecl pos =>
    match miscLoop fuel text pos [] with
    | .ok (miscs, here) =>
      let afterDoctype : Option DoctypeDecl → Nat → PStep Prolog := fun docdecl pos1 =>
        match miscLoop fuel text pos1 miscs with
        | .ok (miscs2, _here2) => .ok ⟨xdecl, docdecl, miscs2⟩
        | .err e => .err e
        | .panic => .panic
        | .nofuel => .nofuel
      match parse_doctype fuel text here with
      | .ok doctypedecl => afterDoctype (some doctypedecl) doctypedecl.get_endpos
      | .err _ => afterDoctype none here
      | .panic => .panic
      | .nofuel => .nofuel
    | .err e => .err e
    | .panic => .panic
    | .nofuel => .nofuel
  match parse_xmldecl text start with
  | .ok xmldecl => afterDecl (some xmldecl) xmldecl.get_endpos
  | .err _ => afterDecl none start
  | .panic => .panic
  | .nofuel => .nofuel

/-- The misc loop of `parse_tail`, including the final match on the
terminating failure: `TextEnd` yields the collected list, anything else is
propagated as an error. -/
def tailLoop (fuel : Nat) (text : Str) (pos : Nat) (buf : List Misc) : PStep (List Misc) :=
  match fuel with
  | 0 => .nofuel
  | fuel+1 =>
    match parse_misc text pos with
    | .ok misc => tailLoop fuel text misc.get_endpos (buf ++ [misc])
    | .error .TextEnd => .ok buf
    | .error e => .err e

/-- `fn parse_tail`. -/
def parse_tail (fuel : Nat) (text : Str) (start : Nat) : PStep (List Misc) :=
  tailLoop fuel text start []

/- ===== Attributes and tags. ===== -/

/-- The `while !end_hit` loop of `parse_attvalue`. -/
def attvalueLoop (fuel : Nat) (text : Str) (single : Bool) (idx : Nat)
    (items : List AttValueItem) (current : Str) : PStep (List AttValueItem) :=
  match fuel with
  | 0 => .nofuel
  | fuel+1 =>
    match text[idx]? with
    | none => .err .TextEnd
    | some c =>
      if c == sq && single then
        .ok (if current.length > 0 then items ++ [.Text current] else items)
      else if c == dq && !single then
        .ok (if current.length > 0 then items ++ [.Text current] else items)
      else if c == '<' then .err (.BadChar c)
      else if c == '&' then
        let items1 := if current.length > 0 then items ++ [.Text current] else items
        match parse_reference text idx with
        | .error e => .err e
        | .ok reference =>
          let item : AttValueItem := .Reference reference
          attvalueLoop fuel text single (idx + item.text_len) (items1 ++ [item]) []
      else attvalueLoop fuel text single (idx+1) items (current ++ [c])

/-- `fn parse_attvalue`.  Source bug kept verbatim: the opening character is
only used to choose which quote terminates the value (`single_qoute`); it is
never required to be a quote at all. -/
def parse_attvalue (fuel : Nat) (text : Str) (start : Nat) : PStep AttValue :=
  match text[start]? with
  | none => .err .TextEnd
  | some c0 =>
    let single := c0 == sq
    match attvalueLoop fuel text single (start+1) [] [] with
    | .ok items => .ok ⟨start, items⟩
    | .err e => .err e
    | .panic => .panic
    | .nofuel => .nofuel

/-- `fn parse_attribute`. -/
def parse_attribute (fuel : Nat) (text : Str) (start : Nat) : PStep Attribute :=
  match parse_name text start with
  | .error e => .err e
  | .ok name =>
    let pos := start + strLen name.s
    let pos1 := match parse_ws text pos with
      | .ok ws => ws.get_endpos
      | .error _ => pos
    match text[pos1]? with
    | none => .err .TextEnd
    | some echar =>
      if echar == '=' then
        let pos2 := match parse_ws text (pos1+1) with
          | .ok ws => ws.get_endpos
          | .error _ => pos1 + 1
        match parse_attvalue fuel text pos2 with
        | .ok value => .ok ⟨start, value.get_endpos, name, value⟩
        | .err e => .err e
        | .panic => .panic
        | .nofuel => .nofuel
      else .err (.BadChar echar)

/-- The attribute loop of `parse_empty_elem` (closer `/`); returns the final
`here` and the collected attributes.  A `BadChar('/')` attribute failure ends
the loop normally at the post-whitespace position, as in the source. -/
def emptyLoop (fuel : Nat) (text : Str) (here : Nat) (attribs : List Attribute) :
    PStep (Nat × List Attribute) :=
  match fuel with
  | 0 => .nofuel
  | fuel+1 =>
    match text[here]? with
    | none => .err .TextEnd
    | some c =>
      if c == '/' then .ok (here, attribs)
      else
        match parse_ws text here with
        | .error e => .err e
        | .ok blank =>
          let here1 := blank.get_endpos
          match parse_attribute fuel text here1 with
          | .ok attrib => emptyLoop fuel text attrib.get_endpos (attribs ++ [attrib])
          | .err e => if e = .BadChar '/' then .ok (here1, attribs) else .err e
          | .panic => .panic
          | .nofuel => .nofuel

/-- `fn parse_empty_elem`. -/
def parse_empty_elem (fuel : Nat) (text : Str) (start : Nat) : PStep EmptyElem :=
  match text[start]? with
  | none => .err .TextEnd
  | some c0 =>
    if c0 == '<' then
      match parse_name text (start+1) with
      | .error e => .err e
      | .ok name =>
        let pos := start + 1 + strLen name.s
        match text[pos]? with
        | none => .err .TextEnd
        | some c1 =>
          if c1 == '/' then
            match text[pos+1]? with
            | none => .err .TextEnd
            | some c2 =>
              if c2 == '>' then .ok ⟨start, pos + 2, name, []⟩
              else .err (.BadChar c2)
          else
            match emptyLoop fuel text pos [] with
            | .ok (here, attribs) =>
              (match text[here]? with
               | none => .err .TextEnd
               | some c_here =>
                 if c_here == '/' then
                   match text[here+1]? with
                   | none => .err .TextEnd
                   | some c_last =>
                     if c_last == '>' then .ok ⟨start, here + 2, name, attribs⟩
                     else .err (.BadChar c_last)
                 else .err (.BadChar c_here))
            | .err e => .err e
            | .panic => .panic
            | .nofuel => .nofuel
    else .err (.BadChar c0)

/-- The attribute loop of `parse_starttag` (closer `>`). -/
def stagLoop (fuel : Nat) (text : Str) (here : Nat) (attribs : List Attribute) :
    PStep (Nat × List Attribute) :=
  match fuel with
  | 0 => .nofuel
  | fuel+1 =>
    match text[here]? with
    | none => .err .TextEnd
    | some c =>
      if c == '>' then .ok (here, attribs)
      else
        match parse_ws text here with
        | .error e => .err e
        | .ok blank =>
          let here1 := blank.get_endpos
          match parse_attribute fuel text here1 with
          | .ok attrib => stagLoop fuel text attrib.get_endpos (attribs ++ [attrib])
          | .err e => if e = .BadChar '>' then .ok (here1, attribs) else .err e
          | .panic => .panic
          | .nofuel => .nofuel

/-- `fn parse_starttag`. -/
def parse_starttag (fuel : Nat) (text : Str) (start : Nat) : PStep STag :=
  match text[start]? with
  | none => .err .TextEnd
  | some c0 =>
    if c0 == '<' then
      match parse_name text (start+1) with
      | .error e => .err e
      | .ok name =>
        let pos := start + 1 + strLen name.s
        match text[pos]? with
        | none => .err .TextEnd
        | some c1 =>
          if c1 == '>' then .ok ⟨start, pos + 1, name, []⟩
          else
            match stagLoop fuel text pos [] with
            | .ok (here, attribs) =>
              (match text[here]? with
               | none => .err .TextEnd
               | some c_last =>
                 if c_last == '>' then .ok ⟨start, here + 1, name, attribs⟩
                 else .err (.BadChar c_last))
            | .err e => .err e
            | .panic => .panic
            | .nofuel => .nofuel
    else .err (.BadChar c0)

/-- `fn parse_endtag`. -/
def parse_endtag (text : Str) (start : Nat) : Except XmlError ETag :=
  match text[start]? with
  | none => .error .TextEnd
  | some c0 =>
    if c0 == '<' then
      match text[start+1]? with
      | none => .error .TextEnd
      | some c1 =>
        if c1 == '/' then
          match parse_name text (start+2) with
          | .error e => .error e
          | .ok name =>
            let pos := start + 2 + strLen name.s
            let closepos := match parse_ws text pos with
              | .ok ws => ws.get_endpos
              | .error _ => pos
            match text[closepos]? with
            | none => .error .TextEnd
            | some c_last =>
              if c_last == '>' then .ok ⟨start, closepos + 1, name⟩
              else .error (.BadChar c_last)
        else .error (.BadChar c1)
    else .error (.BadChar c0)

/- ===== The mutually recursive element/content engine. ===== -/

mutual

/-- `fn parse_elem`: try the self-closing shape; a `TextEnd` failure is
returned as-is, any other failure falls back to the full-element shape. -/
def parse_elem : Nat → Str → Nat → Nat → PStep Elem
  | 0, _, _, _ => .nofuel
  | fuel+1, text, start, recurdepth =>
    match parse_empty_elem (fuel+1) text start with
    | .ok empty => .ok (.Empty empty)
    | .err .TextEnd => .err .TextEnd
    | .err _ =>
      (match parse_full_elem fuel text start (recurdepth+1) with
       | .ok full => .ok (.Full full)
       | .err e => .err e
       | .panic => .panic
       | .nofuel => .nofuel)
    | .panic => .panic
    | .nofuel => .nofuel
termination_by structural fuel _ _ _ => fuel

/-- `fn parse_full_elem`: start tag, optional content, end tag, then the
tag-name equality check producing `MismatchedTags` on disagreement. -/
def parse_full_elem : Nat → Str → Nat → Nat → PStep FullElem
  | 0, _, _, _ => .nofuel
  | fuel+1, text, start, recurdepth =>
    match parse_starttag (fuel+1) text start with
    | .err e => .err e
    | .panic => .panic
    | .nofuel => .nofuel
    | .ok stag =>
      let finish : Option Content → Nat → PStep FullElem := fun content pos2 =>
        match parse_endtag text pos2 with
        | .error e => .err e
        | .ok etag =>
          if stag.name.s == etag.name.s then .ok (.mk stag content etag)
          else .err (.MismatchedTags stag.name.s etag.name.s)
      match parse_content fuel text stag.get_endpos (recurdepth+1) with
      | .ok content => finish (some content) content.get_endpos
      | .err _ => finish none stag.get_endpos
      | .panic => .panic
      | .nofuel => .nofuel
termination_by structural fuel _ _ _ => fuel

/-- `fn parse_content`: the zero-or-more content-item loop. -/
def parse_content : Nat → Str → Nat → Nat → PStep Content
  | 0, _, _, _ => .nofuel
  | fuel+1, text, start, recurdepth =>
    match contentLoop fuel text start recurdepth [] with
    | .ok items => .ok (.mk start items)
    | .err e => .err e
    | .panic => .panic
    | .nofuel => .nofuel
termination_by structural fuel _ _ _ => fuel

/-- The `while let Ok(item)` loop of `parse_content`: any item failure ends
the loop, returning the collected items. -/
def contentLoop : Nat → Str → Nat → Nat → List ContentItem → PStep (List ContentItem)
  | 0, _, _, _, _ => .nofuel
  | fuel+1, text, position, recurdepth, items =>
    match parse_content_item fuel text position (recurdepth+1) with
    | .ok item => contentLoop fuel text item.get_endpos recurdepth (items ++ [item])
    | .err _ => .ok items
    | .panic => .panic
    | .nofuel => .nofuel
termination_by structural fuel _ _ _ _ => fuel

/-- `fn parse_content_item`: ordered alternatives reference, comment, PI,
character data, CDATA section, nested element. -/
def parse_content_item : Nat → Str → Nat → Nat → PStep ContentItem
  | 0, _, _, _ => .nofuel
  | fuel+1, text, start, recurdepth =>
    match parse_reference text start with
    | .ok reference => .ok (.Reference start reference)
    | .error _ =>
    match parse_comment text start with
    | .ok comment => .ok (.Comment comment)
    | .error _ =>
    match parse_pi text start with
    | .ok pi => .ok (.ProcInstr pi)
    | .error _ =>
    match parse_chardata text start with
    | .ok chardata => .ok (.CharData chardata)
    | .error _ =>
    match parse_cdsect text start with
    | .ok cdsect => .ok (.CDSect cdsect)
    | .panic => .panic
    | .nofuel => .nofuel
    | .err _ =>
    match parse_elem fuel text start (recurdepth+1) with
    | .ok elem => .ok (.Elem elem)
    | .err _ => .err .NoValidVariant
    | .panic => .panic
    | .nofuel => .nofuel
termination_by structural fuel _ _ _ => fuel

end

/- ===== Specification-side helper predicates (used in theorem statements). ===== -/

/-- The character class scanned before the terminator by `parse_chardata`:
everything except `<` and `&`. -/
def notTermChar (c : Char) : Bool := !(c == '<' || c == '&')

/-- Number of leading `]` characters. -/
def leadRB (l : Str) : Nat := (l.takeWhile (fun c => c == ']')).length

/-- Number of trailing `]` characters (the `count` state of the
`parse_chardata` and `parse_cdsect` scans). -/
def trailRB (l : Str) : Nat := leadRB l.reverse

/-- A well-formed character-reference run: an optional leading `x`, the rest
hex digits (the first character may itself be a hex digit). -/
def goodCharRefRun : Str → Bool
  | [] => true
  | c :: rest => (isHexDigitChar c || c == 'x') && rest.all isHexDigitChar

/-- A numeral matching `[0-9]+(\.[0-9]+)?`: a non-empty leading digit run,
then either nothing or `.` followed by a non-empty digit run. -/
def matchesNumeral (s : Str) : Bool :=
  decide (s.takeWhile isAsciiDigit ≠ []) &&
  (match s.dropWhile isAsciiDigit with
   | [] => true
   | c :: fp => c == '.' && decide (fp ≠ []) && fp.all isAsciiDigit)

/-- Map over the `ok` value of a `PStep`. -/
def PStep.map {α β : Type} (f : α → β) : PStep α → PStep β
  | .ok a => .ok (f a)
  | .err e => .err e
  | .panic => .panic
  | .nofuel => .nofuel

/-- `pub fn parse_doc`. -/
def parse_doc (fuel : Nat) (text : Str) : PStep Doc :=
  match parse_prolog fuel text 0 with
  | .ok prolog =>
    (match parse_elem fuel text prolog.get_endpos 0 with
     | .ok elem =>
       (match parse_tail fuel text elem.get_endpos with
        | .ok tail => .ok ⟨prolog, elem, tail⟩
        | .err e => .err e
        | .panic => .panic
        | .nofuel => .nofuel)
     | .err e => .err e
     | .panic => .panic
     | .nofuel => .nofuel)
  | .err e => .err e
  | .panic => .panic
  | .nofuel => .nofuel

/- ============================= Theorems ============================= -/

/- ===== General lemmas about the string model. ===== -/

theorem utf8Len_pos (c : Char) : 1 ≤ utf8Len c := by
  simp only [utf8Len]; split_ifs <;> omega

theorem one_le_strLen {s : Str} (h : s ≠ []) : 1 ≤ strLen s := by
  cases s with
  | nil => exact absurd rfl h
  | cons c t =>
    have := utf8Len_pos c
    simp only [strLen, List.map_cons, List.sum_cons]
    omega

theorem length_le_strLen (s : Str) : s.length ≤ strLen s := by
  induction s with
  | nil => simp [strLen]
  | cons c t ih =>
    have := utf8Len_pos c
    simp only [strLen, List.map_cons, List.sum_cons, List.length_cons] at *
    omega

/- ===== Claim C1. ===== -/

/-- C1: the claim that every node's `get_endpos` reproduces exactly the
consumed span fails at `Prolog`: the source's `impl Ends for Prolog` returns
the constant `0`.  On the input `" <a/>"`, `parse_prolog` consumes the
leading whitespace (a misc item whose own end offset is `1`), yet the
prolog's end offset is `0`; consequently `parse_doc` restarts the element at
offset `0` and fails with `BadChar(' ')` on this well-formed document. -/
theorem claim_C1_prolog_endpos_zero :
    parse_prolog 3 ((" <a/>").toList) 0 = .ok ⟨none, none, [.Ws ⟨0, [' ']⟩]⟩ ∧
    Prolog.get_endpos ⟨none, none, [.Ws ⟨0, [' ']⟩]⟩ = 0 ∧
    Misc.get_endpos (.Ws ⟨0, [' ']⟩) = 1 ∧
    parse_doc 9 ((" <a/>").toList) = .err (.BadChar ' ') :=
  ⟨rfl, rfl, rfl, rfl⟩

/- ===== Claim C8. ===== -/

/-- C8: the claim that `parse_attvalue` succeeds only when the character at
the start offset is a quote fails: the source computes `single_qoute` from
that character but never requires it to be a quote.  On `x1"` (start char
`x`, not a quote) it succeeds, scanning up to the `"`. -/
theorem claim_C8_attvalue_accepts_nonquote_opener :
    parse_attvalue 10 ['x', '1', dq] 0 = .ok ⟨0, [.Text ['1']]⟩ ∧
    (('x' == dq) || ('x' == sq)) = false :=
  ⟨rfl, rfl⟩

/- ===== Claim C3. ===== -/

/-- C3: `parse_elem` first attempts the self-closing shape via
`parse_empty_elem`; a `TextEnd` failure is returned to the caller without
attempting the full shape; on success the empty element is returned; on any
other failure the full-element attempt at the same start offset is returned
(as that attempt's result, wrapped into `Elem`). -/
theorem claim_C3_elem_dispatch (fuel : Nat) (text : Str) (start recurdepth : Nat) :
    (∀ e, parse_empty_elem (fuel+1) text start = .ok e →
      parse_elem (fuel+1) text start recurdepth = .ok (.Empty e)) ∧
    (parse_empty_elem (fuel+1) text start = .err .TextEnd →
      parse_elem (fuel+1) text start recurdepth = .err .TextEnd) ∧
    (∀ er, parse_empty_elem (fuel+1) text start = .err er → er ≠ .TextEnd →
      parse_elem (fuel+1) text start recurdepth =
        PStep.map Elem.Full (parse_full_elem fuel text start (recurdepth+1))) := by
  refine ⟨fun e he => ?_, fun he => ?_, fun er he hne => ?_⟩
  · simp [parse_elem, he]
  · simp [parse_elem, he]
  · cases er <;> simp only [parse_elem, he] <;>
      first
      | exact absurd rfl hne
      | cases h : parse_full_elem fuel text start (recurdepth+1) <;> simp [PStep.map, h]

/-- Witness for C3: all three branches exercised at concrete inputs. -/
theorem claim_C3_witness :
    parse_elem 5 (("<a/>").toList) 0 0 = .ok (.Empty ⟨0, 4, ⟨['a']⟩, []⟩) ∧
    parse_elem 5 ([]) 0 0 = .err .TextEnd ∧
    parse_elem 5 (("<a></a>").toList) 0 0 =
      PStep.map Elem.Full (parse_full_elem 4 (("<a></a>").toList) 0 1) := by
  refine ⟨(claim_C3_elem_dispatch 4 _ 0 0).1 _ (by rfl),
    (claim_C3_elem_dispatch 4 _ 0 0).2.1 (by rfl),
    (claim_C3_elem_dispatch 4 _ 0 0).2.2 (.BadChar '>') (by rfl) (by decide)⟩

/- ===== Claim C2. ===== -/

theorem contentLoop_ne_err (fuel : Nat) (text : Str) (pos d : Nat)
    (items : List ContentItem) (e : XmlError) :
    contentLoop fuel text pos d items ≠ .err e := by
  induction fuel generalizing pos items with
  | zero => simp [contentLoop]
  | succ fuel ih =>
    simp only [contentLoop]
    cases h : parse_content_item fuel text pos (d+1) with
    | ok item => exact ih item.get_endpos (items ++ [item])
    | err _ => simp
    | panic => simp
    | nofuel => simp

theorem parse_content_ne_err (fuel : Nat) (text : Str) (start d : Nat) (e : XmlError) :
    parse_content fuel text start d ≠ .err e := by
  cases fuel with
  | zero => simp [parse_content]
  | succ fuel =>
    simp only [parse_content]
    cases h : contentLoop fuel text start d [] with
    | ok items => simp
    | err e' => exact absurd h (contentLoop_ne_err fuel text start d [] e')
    | panic => simp
    | nofuel => simp

theorem miscLoop_ok_or_nofuel (fuel : Nat) (text : Str) (here : Nat) (miscs : List Misc) :
    (∃ p, miscLoop fuel text here miscs = .ok p) ∨ miscLoop fuel text here miscs = .nofuel := by
  induction fuel generalizing here miscs with
  | zero => right; rfl
  | succ fuel ih =>
    simp only [miscLoop]
    cases h : parse_misc text here with
    | ok misc => exact ih misc.get_endpos (miscs ++ [misc])
    | error e => exact Or.inl ⟨(miscs, here), rfl⟩

theorem parse_prolog_ne_err (fuel : Nat) (text : Str) (start : Nat) (e : XmlError) :
    parse_prolog fuel text start ≠ .err e := by
  have main : ∀ (xdecl : Option XmlDecl) (pos : Nat),
      (match miscLoop fuel text pos [] with
       | .ok (miscs, here) =>
         (match parse_doctype fuel text here with
          | .ok doctypedecl =>
            (match miscLoop fuel text doctypedecl.get_endpos miscs with
             | .ok (miscs2, _here2) => PStep.ok (⟨xdecl, some doctypedecl, miscs2⟩ : Prolog)
             | .err e => .err e
             | .panic => .panic
             | .nofuel => .nofuel)
          | .err _ =>
            (match miscLoop fuel text here miscs with
             | .ok (miscs2, _here2) => PStep.ok (⟨xdecl, none, miscs2⟩ : Prolog)
             | .err e => .err e
             | .panic => .panic
             | .nofuel => .nofuel)
          | .panic => .panic
          | .nofuel => .nofuel)
       | .err e => .err e
       | .panic => .panic
       | .nofuel => .nofuel) ≠ PStep.err e := by
    intro xdecl pos
    rcases miscLoop_ok_or_nofuel fuel text pos [] with ⟨⟨miscs, here⟩, h1⟩ | h1 <;> rw [h1]
    · cases h2 : parse_doctype fuel text here with
      | ok dd =>
        rcases miscLoop_ok_or_nofuel fuel text dd.get_endpos miscs with ⟨⟨m2, h2'⟩, h3⟩ | h3 <;>
          simp [h2, h3]
      | err _ =>
        rcases miscLoop_ok_or_nofuel fuel text here miscs with ⟨⟨m2, h2'⟩, h3⟩ | h3 <;>
          simp [h2, h3]
      | panic => simp [h2]
      | nofuel => simp [h2]
    · simp
  simp only [parse_prolog]
  cases h : parse_xmldecl text start with
  | ok x => exact main (some x) x.get_endpos
  | err _ => exact main none start
  | panic => simp
  | nofuel => simp

theorem tailLoop_ne_err_textEnd (fuel : Nat) (text : Str) (pos : Nat) (buf : List Misc) :
    tailLoop fuel text pos buf ≠ .err .TextEnd := by
  induction fuel generalizing pos buf with
  | zero => simp [tailLoop]
  | succ fuel ih =>
    simp only [tailLoop]
    cases h : parse_misc text pos with
    | ok misc => exact ih misc.get_endpos (buf ++ [misc])
    | error e => cases e <;> simp

/-- C2 (amended): the zero-or-more repetition loops for prolog misc items and
content items stop at the first failure of the repeated production and never
propagate it (the enclosing production cannot return an error on their
account), **but** `parse_tail` is different: its misc loop swallows only a
terminating `TextEnd`, returning the collected list, and propagates any other
terminating failure of `parse_misc` to the caller as an error.  (The
internal-subset loop is not included: its repeated production either
succeeds or panics in `unimplemented!()` code, and on success the loop
panics computing the item's span, so its stop condition is unreachable.) -/
theorem claim_C2_repetition_loops :
    (∀ fuel text start d e, parse_content fuel text start d ≠ .err e) ∧
    (∀ fuel text pos d items e, parse_content_item fuel text pos (d+1) = .err e →
        contentLoop (fuel+1) text pos d items = .ok items) ∧
    (∀ fuel text here miscs e, parse_misc text here = .error e →
        miscLoop (fuel+1) text here miscs = .ok (miscs, here)) ∧
    (∀ fuel text start e, parse_prolog fuel text start ≠ .err e) ∧
    (∀ fuel text start, parse_tail fuel text start ≠ .err .TextEnd) ∧
    (∀ fuel text start, parse_misc text start = .error .TextEnd →
        parse_tail (fuel+1) text start = .ok []) ∧
    (∀ fuel text start e, parse_misc text start = .error e → e ≠ .TextEnd →
        parse_tail (fuel+1) text start = .err e) := by
  refine ⟨parse_content_ne_err, ?_, ?_, parse_prolog_ne_err, ?_, ?_, ?_⟩
  · intro fuel text pos d items e h
    simp [contentLoop, h]
  · intro fuel text here miscs e h
    simp [miscLoop, h]
  · intro fuel text start
    exact tailLoop_ne_err_textEnd fuel text start []
  · intro fuel text start h
    simp [parse_tail, tailLoop, h]
  · intro fuel text start e h hne
    cases e
    case TextEnd => exact absurd rfl hne
    all_goals simp [parse_tail, tailLoop, h]

/-- C2 counterexample: on input `"a"` the misc loop's terminating failure is
`NoValidVariant` (not `TextEnd`), and `parse_tail` returns that error instead
of the collected (empty) misc list the claim requires. -/
theorem claim_C2_counterexample :
    parse_misc ['a'] 0 = .error .NoValidVariant ∧
    parse_tail 5 ['a'] 0 = .err .NoValidVariant :=
  ⟨rfl, rfl⟩

/-- Witness for C2: each hypothesis-bearing conjunct applied at a concrete input. -/
theorem claim_C2_witness :
    contentLoop 4 (("</x>").toList) 0 0 [] = .ok [] ∧
    miscLoop 1 ['a'] 0 [] = .ok ([], 0) ∧
    parse_tail 1 [] 0 = .ok [] ∧
    parse_tail 1 ['a'] 0 = .err .NoValidVariant :=
  ⟨claim_C2_repetition_loops.2.1 3 _ 0 0 [] .NoValidVariant (by rfl),
   claim_C2_repetition_loops.2.2.1 0 _ 0 [] .NoValidVariant (by rfl),
   claim_C2_repetition_loops.2.2.2.2.2.1 0 _ 0 (by rfl),
   claim_C2_repetition_loops.2.2.2.2.2.2 0 _ 0 .NoValidVariant (by rfl) (by decide)⟩

/- ===== Claim C5. ===== -/

theorem startsWith_iff (p l : Str) : startsWith p l = true ↔ ∃ t, l = p ++ t := by
  induction p generalizing l with
  | nil => simp [startsWith]
  | cons a as_ ih =>
    cases l with
    | nil => simp [startsWith]
    | cons b bs =>
      simp only [startsWith, Bool.and_eq_true, beq_iff_eq, ih, List.cons_append,
        List.cons.injEq]
      constructor
      · rintro ⟨rfl, t, rfl⟩
        exact ⟨t, rfl, rfl⟩
      · rintro ⟨t, rfl, rfl⟩
        exact ⟨rfl, t, rfl⟩

/-- C5 (amended): after whitespace, the `standalone` keyword and `=`, the
value-position tests succeed for three of the four literal tokens —
`"yes"`, `'yes'` (standalone = true, end advanced by 5) and `"no"`
(standalone = false, end advanced by 4).  The fourth test, for `'no'`, is
performed against the slice at the `standalone` keyword instead of the value
position (source bug), and since that slice begins with `standalone` it can
never match, so any other value text — including a literal `'no'` — yields
`KeywordMatchFail`. -/
theorem claim_C5_standalone_tokens (text : Str) (start : Nat) (w : Ws) (eq : EqHelper)
    (h1 : parse_ws text start = .ok w)
    (h2 : startsWith (("standalone").toList) (text.drop w.get_endpos) = true)
    (h3 : parse_eq text (w.get_endpos + 10) = .ok eq) :
    (startsWith [dq, 'y', 'e', 's', dq] (text.drop eq.endPos) = true →
       parse_standalone text start = .ok ⟨start, eq.endPos + 5, true⟩) ∧
    (startsWith [sq, 'y', 'e', 's', sq] (text.drop eq.endPos) = true →
       parse_standalone text start = .ok ⟨start, eq.endPos + 5, true⟩) ∧
    (startsWith [dq, 'n', 'o', dq] (text.drop eq.endPos) = true →
       parse_standalone text start = .ok ⟨start, eq.endPos + 4, false⟩) ∧
    (startsWith [dq, 'y', 'e', 's', dq] (text.drop eq.endPos) = false →
     startsWith [sq, 'y', 'e', 's', sq] (text.drop eq.endPos) = false →
     startsWith [dq, 'n', 'o', dq] (text.drop eq.endPos) = false →
       parse_standalone text start = .error .KeywordMatchFail) := by
  obtain ⟨t2, h2eq⟩ := (startsWith_iff _ _).mp h2
  have h2' : startsWith ['s', 't', 'a', 'n', 'd', 'a', 'l', 'o', 'n', 'e']
      (text.drop w.get_endpos) = true := h2
  refine ⟨fun ha => ?_, fun hb => ?_, fun hc => ?_, fun ha hb hc => ?_⟩
  · simp [parse_standalone, h1, h2', h3, ha]
  · obtain ⟨t, hEq⟩ := (startsWith_iff _ _).mp hb
    simp +decide [parse_standalone, h1, h2', h3, hEq, startsWith]
  · obtain ⟨t, hEq⟩ := (startsWith_iff _ _).mp hc
    simp +decide [parse_standalone, h1, h2', h3, hEq, startsWith]
  · simp +decide [parse_standalone, h1, h2', h3, ha, hb, hc, h2eq, startsWith]

/-- C5 counterexample: on `" standalone='no'"` the source returns
`KeywordMatchFail`, not the `is_standalone = false` success the claim
requires for the single-quoted `no` token. -/
theorem claim_C5_counterexample :
    parse_standalone ((" standalone=").toList ++ [sq, 'n', 'o', sq]) 0 =
      .error .KeywordMatchFail :=
  rfl

/-- Witness for C5: all four branches at concrete inputs. -/
theorem claim_C5_witness :
    parse_standalone ((" standalone=\"yes\"").toList) 0 = .ok ⟨0, 17, true⟩ ∧
    parse_standalone ((" standalone=").toList ++ [sq, 'y', 'e', 's', sq]) 0 =
      .ok ⟨0, 17, true⟩ ∧
    parse_standalone ((" standalone=\"no\"").toList) 0 = .ok ⟨0, 16, false⟩ ∧
    parse_standalone ((" standalone=").toList ++ [sq, 'n', 'o', sq]) 0 =
      .error .KeywordMatchFail :=
  ⟨(claim_C5_standalone_tokens _ 0 ⟨0, [' ']⟩ ⟨11, 12⟩ (by rfl) (by rfl) (by rfl)).1
      (by rfl),
   (claim_C5_standalone_tokens _ 0 ⟨0, [' ']⟩ ⟨11, 12⟩ (by rfl) (by rfl) (by rfl)).2.1
      (by rfl),
   (claim_C5_standalone_tokens _ 0 ⟨0, [' ']⟩ ⟨11, 12⟩ (by rfl) (by rfl) (by rfl)).2.2.1
      (by rfl),
   (claim_C5_standalone_tokens _ 0 ⟨0, [' ']⟩ ⟨11, 12⟩ (by rfl) (by rfl) (by rfl)).2.2.2
      (by rfl) (by rfl) (by rfl)⟩

/- ===== Claim C7. ===== -/

theorem hexDigit_ne_semi {c : Char} (h : isHexDigitChar c = true) : (c == ';') = false := by
  by_cases hc : c = ';'
  · subst hc
    exact absurd h (by decide)
  · simp [hc]

theorem charRefLoop_append_hex (run : Str) (h : run.all isHexDigitChar = true)
    (tail buf : Str) :
    charRefLoop (run ++ tail) buf false = charRefLoop tail (buf ++ run) false := by
  induction run generalizing buf with
  | nil => simp
  | cons c cs ih =>
    rw [List.all_cons, Bool.and_eq_true] at h
    simp only [List.cons_append, charRefLoop, hexDigit_ne_semi h.1, h.1, if_true,
      Bool.false_eq_true, if_false, List.append_eq]
    rw [ih h.2]
    simp

/-- C7 (amended): with `&#` at the start offset and a well-formed run (an
optional leading `x`, otherwise hex digits), `parse_reference` returns
`CharRef(run)` when the run is terminated by `;` — **and equally when the
input simply ends after the run, with no terminating `;` at all** (the
source's scan loop falls off the end of the input and still constructs the
reference); a disallowed character ending the run yields `BadChar` with that
character. -/
theorem claim_C7_charref (text : Str) (start : Nat) (run : Str)
    (h0 : text[start]? = some '&') (h1 : text[start+1]? = some '#')
    (hrun : goodCharRefRun run = true) :
    (∀ rest, text.drop (start+2) = run ++ ';' :: rest →
        parse_reference text start = .ok (.CharRef run)) ∧
    (text.drop (start+2) = run →
        parse_reference text start = .ok (.CharRef run)) ∧
    (∀ c rest, text.drop (start+2) = run ++ c :: rest →
        (c == ';') = false → isHexDigitChar c = false → ¬(c = 'x' ∧ run = []) →
        parse_reference text start = .error (.BadChar c)) := by
  have hred : ∀ r : Except XmlError Str,
      charRefLoop (text.drop (start+2)) [] true = r →
      parse_reference text start =
        (match r with | .ok s => .ok (.CharRef s) | .error e => .error e) := by
    intro r hr
    simp [parse_reference, h0, h1, hr]
  cases run with
  | nil =>
    refine ⟨fun rest hd => ?_, fun hd => ?_, fun c rest hd hsemi hhex hx => ?_⟩
    · exact hred (.ok []) (by rw [hd]; simp [charRefLoop])
    · exact hred (.ok []) (by rw [hd]; simp [charRefLoop])
    · have hcx : (c == 'x') = false := by
        simp only [beq_eq_false_iff_ne, ne_eq]
        exact fun h => hx ⟨h, rfl⟩
      exact hred (.error (.BadChar c))
        (by rw [hd]; simp [charRefLoop, hsemi, hhex, hcx])
  | cons r rs =>
    simp only [goodCharRefRun, Bool.and_eq_true] at hrun
    have step : ∀ tail, charRefLoop ((r :: rs) ++ tail) [] true =
        charRefLoop tail (r :: rs) false := by
      intro tail
      have rsemi : (r == ';') = false := by
        rcases Bool.or_eq_true _ _ |>.mp hrun.1 with h | h
        · exact hexDigit_ne_semi h
        · rw [beq_iff_eq] at h
          subst h
          decide
      rcases Bool.or_eq_true _ _ |>.mp hrun.1 with h | h
      · simp only [List.cons_append, charRefLoop, rsemi, h, if_true, Bool.false_eq_true,
          if_false, List.append_eq]
        rw [charRefLoop_append_hex rs hrun.2]
        simp
      · rw [beq_iff_eq] at h
        subst h
        simp only [List.cons_append, charRefLoop, rsemi, Bool.false_eq_true, if_false,
          if_true, List.append_eq]
        rw [charRefLoop_append_hex rs hrun.2]
        simp
    have stepNil : charRefLoop (r :: rs) [] true = charRefLoop [] (r :: rs) false := by
      have h := step []
      rwa [List.append_nil] at h
    refine ⟨fun rest hd => ?_, fun hd => ?_, fun c rest hd hsemi hhex _hx => ?_⟩
    · exact hred (.ok (r :: rs)) (by rw [hd, step]; simp [charRefLoop])
    · exact hred (.ok (r :: rs)) (by rw [hd, stepNil]; simp [charRefLoop])
    · exact hred (.error (.BadChar c))
        (by rw [hd, step]; simp [charRefLoop, hsemi, hhex])

/-- C7 counterexample: `&#1` with the input ending right after the digit —
no terminating `;` — still succeeds with `CharRef("1")`, falsifying the
claim's requirement that such a run does not succeed. -/
theorem claim_C7_counterexample :
    parse_reference (("&#1").toList) 0 = .ok (.CharRef ['1']) :=
  rfl

/-- Witness for C7: the three branches at concrete inputs. -/
theorem claim_C7_witness :
    parse_reference (("&#x1F;").toList) 0 = .ok (.CharRef ['x', '1', 'F']) ∧
    parse_reference (("&#x1F").toList) 0 = .ok (.CharRef ['x', '1', 'F']) ∧
    parse_reference (("&#1g;").toList) 0 = .error (.BadChar 'g') :=
  ⟨(claim_C7_charref (("&#x1F;").toList) 0 ['x', '1', 'F'] (by rfl) (by rfl) (by decide)).1
      [] (by rfl),
   (claim_C7_charref (("&#x1F").toList) 0 ['x', '1', 'F'] (by rfl) (by rfl)
      (by decide)).2.1 (by rfl),
   (claim_C7_charref (("&#1g;").toList) 0 ['1'] (by rfl) (by rfl) (by decide)).2.2 'g'
      [';'] (by rfl) (by decide) (by decide) (by decide)⟩

/- ===== Claim C9. ===== -/

theorem hasSeq_iff (pat l : Str) : hasSeq pat l = true ↔ ∃ u v, l = u ++ pat ++ v := by
  induction l with
  | nil =>
    cases pat with
    | nil => simp [hasSeq, startsWith]
    | cons p ps => simp [hasSeq, startsWith]
  | cons c rest ih =>
    simp only [hasSeq, Bool.or_eq_true, startsWith_iff, ih]
    constructor
    · rintro (⟨t, ht⟩ | ⟨u, v, rfl⟩)
      · exact ⟨[], t, by simpa using ht⟩
      · exact ⟨c :: u, v, rfl⟩
    · rintro ⟨u, v, h⟩
      cases u with
      | nil =>
        exact Or.inl ⟨v, by simpa using h⟩
      | cons a u' =>
        rw [List.cons_append, List.cons_append] at h
        injection h with h1 h2
        exact Or.inr ⟨u', v, h2⟩

theorem snoc_inj {l m : Str} {c d : Char} (h : l ++ [c] = m ++ [d]) : l = m ∧ c = d := by
  refine ⟨(List.append_inj' h rfl).1, ?_⟩
  have h2 := (List.append_inj' h rfl).2
  simpa using h2

theorem hasSeq_snoc {pat l : Str} {c : Char} (h : hasSeq pat (l ++ [c]) = true) :
    hasSeq pat l = true ∨ ∃ u, l ++ [c] = u ++ pat := by
  obtain ⟨u, v, huv⟩ := (hasSeq_iff pat (l ++ [c])).mp h
  rcases List.eq_nil_or_concat v with rfl | ⟨v', b, rfl⟩
  · right
    refine ⟨u, ?_⟩
    simpa using huv
  · left
    have huv' : l ++ [c] = ((u ++ pat) ++ v') ++ [b] := by
      rw [huv]
      simp
    obtain ⟨h1, _⟩ := snoc_inj huv'
    exact (hasSeq_iff pat l).mpr ⟨u, v', by simpa using h1⟩

theorem trailRB_snoc (l : Str) (c : Char) :
    trailRB (l ++ [c]) = if c == ']' then trailRB l + 1 else 0 := by
  by_cases h : (c == ']') = true
  · simp [trailRB, leadRB, List.takeWhile_cons, h]
  · simp only [Bool.not_eq_true] at h
    simp [trailRB, leadRB, List.takeWhile_cons, h]

theorem leadRB_ge2 {m : Str} (h : 2 ≤ leadRB m) : ∃ t, m = ']' :: ']' :: t := by
  cases m with
  | nil => simp [leadRB] at h
  | cons a m' =>
    by_cases ha : (a == ']') = true
    · rw [beq_iff_eq] at ha
      subst ha
      cases m' with
      | nil => simp [leadRB, List.takeWhile_cons] at h
      | cons b m'' =>
        by_cases hb : (b == ']') = true
        · rw [beq_iff_eq] at hb
          subst hb
          exact ⟨m'', rfl⟩
        · simp only [Bool.not_eq_true] at hb
          simp [leadRB, List.takeWhile_cons, hb] at h
    · simp only [Bool.not_eq_true] at ha
      simp [leadRB, List.takeWhile_cons, ha] at h

theorem trailRB_ge2 {l : Str} (h : 2 ≤ trailRB l) : ∃ u, l = u ++ [']', ']'] := by
  obtain ⟨t, ht⟩ := leadRB_ge2 h
  refine ⟨t.reverse, ?_⟩
  have := congrArg List.reverse ht
  rw [List.reverse_reverse] at this
  rw [this]
  simp

theorem trailRB_of_sq (u : Str) : 2 ≤ trailRB (u ++ [']', ']']) := by
  have h1 : u ++ [']', ']'] = (u ++ [']']) ++ [']'] := by simp
  rw [h1, trailRB_snoc, if_pos (by rfl), trailRB_snoc, if_pos (by rfl)]
  omega

theorem chardataLoop_illegal (rem : Str) : ∀ (data : Str),
    hasSeq [']', ']', '>'] (data ++ rem.takeWhile notTermChar) = true →
    hasSeq [']', ']', '>'] data = false →
    chardataLoop rem data (trailRB data) = .error .IllegalSubstr := by
  induction rem with
  | nil =>
    intro data h hfalse
    rw [List.takeWhile_nil, List.append_nil] at h
    exact absurd h (by simp [hfalse])
  | cons c rest ih =>
    intro data h hfalse
    by_cases hterm : (c == '<' || c == '&') = true
    · have : notTermChar c = false := by simp [notTermChar, hterm]
      rw [List.takeWhile_cons, this] at h
      simp only [Bool.false_eq_true, if_false, List.append_nil] at h
      exact absurd h (by simp [hfalse])
    · have hnt : notTermChar c = true := by simp [notTermChar] at hterm ⊢; exact hterm
      rw [List.takeWhile_cons, hnt, if_pos rfl] at h
      have hassoc : data ++ c :: rest.takeWhile notTermChar =
          (data ++ [c]) ++ rest.takeWhile notTermChar := by simp
      rw [hassoc] at h
      by_cases hrb : (c == ']') = true
      · rw [beq_iff_eq] at hrb
        subst hrb
        have hfalse' : hasSeq [']', ']', '>'] (data ++ [']']) = false := by
          cases hq : hasSeq [']', ']', '>'] (data ++ [']'])
          · rfl
          · rcases hasSeq_snoc hq with hl | ⟨u, hu⟩
            · exact absurd hl (by simp [hfalse])
            · have : data ++ [']'] = (u ++ [']', ']']) ++ ['>'] := by
                rw [hu]; simp
              exact absurd (snoc_inj this).2 (by decide)
        have := ih (data ++ [']']) (by rw [← hassoc] at h ⊢; exact h) hfalse'
        rw [trailRB_snoc, if_pos (by rfl)] at this
        simpa [chardataLoop] using this
      · by_cases hgt : (c == '>') = true
        · rw [beq_iff_eq] at hgt
          subst hgt
          by_cases hc2 : 2 ≤ trailRB data
          · simp [chardataLoop, hrb, hc2]
          · have hfalse' : hasSeq [']', ']', '>'] (data ++ ['>']) = false := by
              cases hq : hasSeq [']', ']', '>'] (data ++ ['>'])
              · rfl
              · rcases hasSeq_snoc hq with hl | ⟨u, hu⟩
                · exact absurd hl (by simp [hfalse])
                · have : data ++ ['>'] = (u ++ [']', ']']) ++ ['>'] := by
                    rw [hu]; simp
                  have hdata := (snoc_inj this).1
                  rw [hdata] at hc2
                  exact absurd (trailRB_of_sq u) hc2
            have := ih (data ++ ['>']) h hfalse'
            rw [trailRB_snoc, if_neg (by decide)] at this
            have hlt : ¬ 2 ≤ trailRB data := hc2
            simpa [chardataLoop, hterm, hrb, hlt] using this
        · have hfalse' : hasSeq [']', ']', '>'] (data ++ [c]) = false := by
            cases hq : hasSeq [']', ']', '>'] (data ++ [c])
            · rfl
            · rcases hasSeq_snoc hq with hl | ⟨u, hu⟩
              · exact absurd hl (by simp [hfalse])
              · have hsp : data ++ [c] = (u ++ [']', ']']) ++ ['>'] := by
                  rw [hu]; simp
                exact absurd (snoc_inj hsp).2 (by simpa using hgt)
          have := ih (data ++ [c]) h hfalse'
          rw [trailRB_snoc, if_neg (by simpa using hrb)] at this
          simpa [chardataLoop, hterm, hrb, hgt] using this

theorem chardataLoop_ok (run : Str) : ∀ (data : Str) (c : Char) (rest : Str),
    run.all notTermChar = true → (c == '<' || c == '&') = true →
    hasSeq [']', ']', '>'] (data ++ run) = false →
    chardataLoop (run ++ c :: rest) data (trailRB data) =
      (if 0 < (data ++ run).length then .ok (data ++ run) else .error .NoData) := by
  induction run with
  | nil =>
    intro data c rest _ hterm _
    simp only [List.nil_append, List.append_nil]
    simp only [chardataLoop, hterm, if_pos rfl]
    by_cases hd : 0 < data.length
    · simp [hd]
    · simp only [Nat.not_lt, Nat.le_zero] at hd
      simp [hd]
  | cons r run' ih =>
    intro data c rest hall hterm hfalse
    rw [List.all_cons, Bool.and_eq_true] at hall
    have hrterm : (r == '<' || r == '&') = false := by
      have := hall.1
      simp only [notTermChar, Bool.not_eq_true'] at this
      exact this
    have hassoc : data ++ r :: run' = (data ++ [r]) ++ run' := by simp
    by_cases hrb : (r == ']') = true
    · rw [beq_iff_eq] at hrb
      subst hrb
      have := ih (data ++ [']']) c rest hall.2 hterm (by rw [← hassoc]; exact hfalse)
      rw [trailRB_snoc, if_pos (by rfl)] at this
      rw [← hassoc] at this
      simpa [chardataLoop, hrterm] using this
    · by_cases hgt : (r == '>') = true
      · rw [beq_iff_eq] at hgt
        subst hgt
        have hc2 : ¬ 2 ≤ trailRB data := by
          intro hge
          obtain ⟨u, rfl⟩ := trailRB_ge2 hge
          apply absurd hfalse
          simp only [ne_eq, Bool.not_eq_false]
          exact (hasSeq_iff _ _).mpr ⟨u, run', by simp⟩
        have := ih (data ++ ['>']) c rest hall.2 hterm (by rw [← hassoc]; exact hfalse)
        rw [trailRB_snoc, if_neg (by decide)] at this
        rw [← hassoc] at this
        simpa [chardataLoop, hrterm, hrb, hc2] using this
      · have := ih (data ++ [r]) c rest hall.2 hterm (by rw [← hassoc]; exact hfalse)
        rw [trailRB_snoc, if_neg (by simpa using hrb)] at this
        rw [← hassoc] at this
        simpa [chardataLoop, hrterm, hrb, hgt] using this

/-- C9: `parse_chardata` fails with `IllegalSubstr` whenever the literal
substring `]]>` occurs in the scanned text before any `<` or `&`; and a
non-empty scanned run containing `]]` but not `]]>`, terminated by `<` or
`&`, succeeds with the run preserved verbatim in the node's text. -/
theorem claim_C9_chardata (text : Str) (start : Nat) :
    (hasSeq [']', ']', '>'] ((text.drop start).takeWhile notTermChar) = true →
        parse_chardata text start = .error .IllegalSubstr) ∧
    (∀ run c rest, text.drop start = run ++ c :: rest →
        (c == '<' || c == '&') = true → run ≠ [] →
        run.all notTermChar = true →
        hasSeq [']', ']'] run = true → hasSeq [']', ']', '>'] run = false →
        parse_chardata text start = .ok ⟨start, run⟩) := by
  constructor
  · intro h
    have h0 := chardataLoop_illegal (text.drop start) []
      (by simpa using h) (by decide)
    simp only [trailRB, leadRB, List.reverse_nil, List.takeWhile_nil,
      List.length_nil] at h0
    simp [parse_chardata, h0]
  · intro run c rest hd hterm hne hall _hsq hfalse
    have h0 := chardataLoop_ok run [] c rest hall hterm (by simpa using hfalse)
    rw [if_pos (by simpa [List.length_pos] using hne)] at h0
    simp only [List.nil_append] at h0
    rw [← hd] at h0
    simp only [trailRB, leadRB, List.reverse_nil, List.takeWhile_nil,
      List.length_nil] at h0
    simp [parse_chardata, h0]

/-- Witness for C9: both branches at concrete inputs. -/
theorem claim_C9_witness :
    parse_chardata (("a]]>b<").toList) 0 = .error .IllegalSubstr ∧
    parse_chardata (("a]]b<").toList) 0 = .ok ⟨0, ("a]]b").toList⟩ :=
  ⟨(claim_C9_chardata (("a]]>b<").toList) 0).1 (by decide),
   (claim_C9_chardata (("a]]b<").toList) 0).2 (("a]]b").toList) '<' [] (by rfl)
     (by decide) (by decide) (by decide) (by decide) (by decide)⟩

/- ===== Claim C6. ===== -/

theorem digit_beq_dot_false {c : Char} (h : isAsciiDigit c = true) : (c == '.') = false := by
  by_cases hc : c = '.'
  · subst hc
    exact absurd h (by decide)
  · simp [hc]

theorem mem_takeWhile_pred {p : Char → Bool} {a : Char} :
    ∀ {l : Str}, a ∈ l.takeWhile p → p a = true := by
  intro l
  induction l with
  | nil => simp
  | cons c cs ih =>
    rw [List.takeWhile_cons]
    by_cases hc : p c = true
    · rw [if_pos hc]
      intro hm
      rcases List.mem_cons.mp hm with rfl | hm'
      · exact hc
      · exact ih hm'
    · rw [if_neg hc]
      simp

theorem takeWhile_eq_self_of_all {p : Char → Bool} :
    ∀ {l : Str}, (∀ a ∈ l, p a = true) → l.takeWhile p = l := by
  intro l
  induction l with
  | nil => simp
  | cons c cs ih =>
    intro h
    rw [List.takeWhile_cons, if_pos (h c (List.mem_cons_self c cs))]
    rw [ih fun a ha => h a (List.mem_cons_of_mem c ha)]

theorem dropWhile_eq_nil_of_all {p : Char → Bool} :
    ∀ {l : Str}, (∀ a ∈ l, p a = true) → l.dropWhile p = [] := by
  intro l
  induction l with
  | nil => simp
  | cons c cs ih =>
    intro h
    rw [List.dropWhile_cons, if_pos (h c (List.mem_cons_self c cs))]
    exact ih fun a ha => h a (List.mem_cons_of_mem c ha)

theorem takeWhile_notdot_append (d f : Str) (hd : ∀ a ∈ d, (a == '.') = false) :
    (d ++ '.' :: f).takeWhile (fun c => !(c == '.')) = d := by
  induction d with
  | nil => simp [List.takeWhile_cons]
  | cons c cs ih =>
    rw [List.cons_append, List.takeWhile_cons]
    rw [if_pos (by simp [hd c (List.mem_cons_self c cs)])]
    rw [ih fun a ha => hd a (List.mem_cons_of_mem c ha)]

theorem dropWhile_notdot_append (d f : Str) (hd : ∀ a ∈ d, (a == '.') = false) :
    (d ++ '.' :: f).dropWhile (fun c => !(c == '.')) = '.' :: f := by
  induction d with
  | nil => simp [List.dropWhile_cons]
  | cons c cs ih =>
    rw [List.cons_append, List.dropWhile_cons]
    rw [if_pos (by simp [hd c (List.mem_cons_self c cs)])]
    exact ih fun a ha => hd a (List.mem_cons_of_mem c ha)

theorem matchesNumeral_cases {s : Str} (h : matchesNumeral s = true) :
    (s ≠ [] ∧ s.all isAsciiDigit = true ∧ numeralIp s = s ∧ numeralFp s = []) ∨
    (∃ d f, s = d ++ '.' :: f ∧ d ≠ [] ∧ f ≠ [] ∧ d.all isAsciiDigit = true ∧
       f.all isAsciiDigit = true ∧ numeralIp s = d ∧ numeralFp s = f) := by
  rw [matchesNumeral, Bool.and_eq_true, decide_eq_true_eq] at h
  obtain ⟨h1, h2⟩ := h
  have hsplit := List.takeWhile_append_dropWhile (p := isAsciiDigit) (l := s)
  have htake : ∀ a ∈ s.takeWhile isAsciiDigit, isAsciiDigit a = true :=
    fun a ha => mem_takeWhile_pred ha
  cases hdw : s.dropWhile isAsciiDigit with
  | nil =>
    left
    rw [hdw, List.append_nil] at hsplit
    have hall : ∀ a ∈ s, isAsciiDigit a = true := by
      intro a ha
      rw [← hsplit] at ha
      exact htake a ha
    refine ⟨fun hnil => h1 (by rw [← hsplit, hnil]; simp), ?_, ?_, ?_⟩
    · rw [List.all_eq_true]
      intro a ha
      exact hall a ha
    · exact takeWhile_eq_self_of_all fun a ha => by
        simp [digit_beq_dot_false (hall a ha)]
    · rw [numeralFp]
      rw [dropWhile_eq_nil_of_all fun a ha => by
        simp [digit_beq_dot_false (hall a ha)]]
      rfl
  | cons c fp =>
    right
    rw [hdw] at h2 hsplit
    simp only [Bool.and_eq_true, beq_iff_eq, decide_eq_true_eq] at h2
    obtain ⟨⟨rfl, hfpne⟩, hfpall⟩ := h2
    refine ⟨s.takeWhile isAsciiDigit, fp, hsplit.symm, h1, hfpne, ?_, hfpall, ?_, ?_⟩
    · rw [List.all_eq_true]
      intro a ha
      exact htake a ha
    · rw [numeralIp]
      conv_lhs => rw [← hsplit]
      exact takeWhile_notdot_append _ _ fun a ha => digit_beq_dot_false (htake a ha)
    · rw [numeralFp]
      conv_lhs => rw [← hsplit]
      rw [dropWhile_notdot_append _ _ fun a ha => digit_beq_dot_false (htake a ha)]
      rfl

theorem versionLoop_append (s : Str) (q : Char) (rest : Str)
    (hqd : isAsciiDigit q = false) (hqdot : q ≠ '.') :
    ∀ (seen : Bool) (arena : Str),
    (∀ c ∈ s, isAsciiDigit c = true ∨ c = '.') →
    s.count '.' + (if seen then 1 else 0) ≤ 1 →
    versionLoop (s ++ q :: rest) q seen arena = .ok (arena ++ s) := by
  induction s with
  | nil =>
    intro seen arena _ _
    simp [versionLoop]
  | cons c cs ih =>
    intro seen arena hall hcount
    have hcq : (c == q) = false := by
      simp only [beq_eq_false_iff_ne, ne_eq]
      rintro rfl
      rcases hall c (List.mem_cons_self c cs) with h | h
      · exact absurd h (by simp [hqd])
      · exact hqdot h
    rcases hall c (List.mem_cons_self c cs) with hd | hdot
    · have hcdot : ¬ c = '.' := by
        intro hcc
        subst hcc
        exact absurd hd (by decide)
      have hcdot2 : ¬ '.' = c := fun h => hcdot h.symm
      have hcc : List.count '.' (c :: cs) = List.count '.' cs := by
        simp [List.count_cons, hcdot, hcdot2]
      rw [hcc] at hcount
      have := ih seen (arena ++ [c]) (fun a ha => hall a (List.mem_cons_of_mem c ha)) hcount
      rw [List.append_assoc, List.singleton_append] at this
      simpa [versionLoop, hcq, hd] using this
    · subst hdot
      have hcc : List.count '.' ('.' :: cs) = List.count '.' cs + 1 := by
        simp [List.count_cons]
      rw [hcc] at hcount
      cases seen with
      | true =>
        exfalso
        have hcount2 : cs.count '.' + 1 + 1 ≤ 1 := hcount
        omega
      | false =>
        have hcnt : cs.count '.' + (if true then 1 else 0) ≤ 1 := by
          have hcount2 : cs.count '.' + 1 + 0 ≤ 1 := hcount
          simpa using hcount2
        have := ih true (arena ++ ['.'])
          (fun a ha => hall a (List.mem_cons_of_mem _ ha)) hcnt
        rw [List.append_assoc, List.singleton_append] at this
        simpa [versionLoop, hcq] using this

theorem f32GeTwoNumeral_iff_val (s : Str) :
    f32GeTwoNumeral s = true ↔ (2 - 1 / 2 ^ 24 : ℚ) ≤ numeralVal s := by
  rw [f32GeTwoNumeral, decide_eq_true_eq, numeralVal]
  set I := digitsToNat (numeralIp s) with hI
  set F := digitsToNat (numeralFp s) with hF
  set k := (numeralFp s).length with hk
  have h10 : (0 : ℚ) < 10 ^ k := by positivity
  have h224 : (0 : ℚ) < 2 ^ 24 := by positivity
  have hL : (2 - 1 / 2 ^ 24 : ℚ) = (33554431 : ℚ) / 2 ^ 24 := by norm_num
  have hR : (I : ℚ) + (F : ℚ) / 10 ^ k = ((I : ℚ) * 10 ^ k + F) / 10 ^ k := by
    field_simp
  have hNat : (2 ^ 25 - 1 : ℕ) = 33554431 := by norm_num
  rw [hL, hR, div_le_div_iff₀ h224 h10, hNat]
  constructor
  · intro h
    have hq := (Nat.cast_le (α := ℚ)).mpr h
    push_cast at hq
    nlinarith
  · intro h
    have : ((33554431 * 10 ^ k : ℕ) : ℚ) ≤ ((2 ^ 24 * (I * 10 ^ k + F) : ℕ) : ℚ) := by
      push_cast
      nlinarith
    exact_mod_cast this

/-- C6 (amended): for a quoted numeral matching `[0-9]+(\.[0-9]+)?`,
`parse_version` rejects with `KeywordMatchFail` exactly when the parsed
`f32` value is `>= 2.0`, i.e. when the numeral's exact rational value is
`>= 2 - 2^-24` (correctly-rounded float parsing sends everything from that
threshold up to `2.0` or above) — not when the exact value is `>= 2.0` as
the claim reads: exact values in `[2 - 2^-24, 2)` are also rejected.
1.0, 1.1 and 1.9 are accepted and 2.0 is rejected. -/
theorem claim_C6_version_threshold (q : Char) (s rest : Str)
    (hq : q = dq ∨ q = sq) (hs : matchesNumeral s = true) :
    parse_version ((" version=").toList ++ q :: s ++ q :: rest) 0 =
      (if f32GeTwoNumeral s then .error .KeywordMatchFail
       else .ok ⟨0, s.length + 11, numeralVal s⟩) ∧
    (f32GeTwoNumeral s = true ↔ (2 - 1 / 2 ^ 24 : ℚ) ≤ numeralVal s) := by
  refine ⟨?_, f32GeTwoNumeral_iff_val s⟩
  have hall : ∀ c ∈ s, isAsciiDigit c = true ∨ c = '.' := by
    rcases matchesNumeral_cases hs with ⟨_, hdig, _, _⟩ | ⟨d, f, rfl, _, _, hd, hf, _, _⟩
    · intro c hc
      exact Or.inl ((List.all_eq_true.mp hdig) c hc)
    · intro c hc
      rcases List.mem_append.mp hc with hcd | hcf
      · exact Or.inl ((List.all_eq_true.mp hd) c hcd)
      · rcases List.mem_cons.mp hcf with rfl | hcf'
        · exact Or.inr rfl
        · exact Or.inl ((List.all_eq_true.mp hf) c hcf')
  have hcount : s.count '.' ≤ 1 := by
    rcases matchesNumeral_cases hs with ⟨_, hdig, _, _⟩ | ⟨d, f, rfl, _, _, hd, hf, _, _⟩
    · rw [List.count_eq_zero.mpr]
      · omega
      · intro hmem
        exact absurd ((List.all_eq_true.mp hdig) '.' hmem) (by decide)
    · have hcd : d.count '.' = 0 := List.count_eq_zero.mpr fun hmem =>
        absurd ((List.all_eq_true.mp hd) '.' hmem) (by decide)
      have hcf : f.count '.' = 0 := List.count_eq_zero.mpr fun hmem =>
        absurd ((List.all_eq_true.mp hf) '.' hmem) (by decide)
      rw [List.count_append, List.count_cons, hcd, hcf]
      simp
  have hne : (s == []) = false := by
    rcases matchesNumeral_cases hs with ⟨hn, _, _, _⟩ | ⟨d, f, rfl, _, _, _, _, _, _⟩
    · simpa using hn
    · simp
  have hnedot : (s == ['.']) = false := by
    rcases matchesNumeral_cases hs with ⟨_, hdig, _, _⟩ | ⟨d, f, rfl, hdne, _, _, _, _, _⟩
    · cases hb : s == ['.']
      · rfl
      · rw [beq_iff_eq] at hb
        subst hb
        exact absurd ((List.all_eq_true.mp hdig) '.' (by simp)) (by decide)
    · cases hb : d ++ '.' :: f == ['.']
      · rfl
      · rw [beq_iff_eq] at hb
        have hlen := congrArg List.length hb
        simp at hlen
        have hd1 : 1 ≤ d.length := List.length_pos.mpr hdne
        omega
  have harith : 9 + 1 + s.length + 1 = s.length + 11 := by omega
  rcases hq with rfl | rfl
  · have hws0 : parse_ws ((" version=").toList ++ dq :: s ++ dq :: rest) 0 =
        .ok ⟨0, [' ']⟩ := rfl
    have hend : Ws.get_endpos ⟨0, [' ']⟩ = 1 := rfl
    have hsw : startsWith (("version").toList)
        (((" version=").toList ++ dq :: s ++ dq :: rest).drop 1) = true := rfl
    have hws8 : parse_ws ((" version=").toList ++ dq :: s ++ dq :: rest) 8 =
        .error (.BadChar '=') := rfl
    have hg8 : ((" version=").toList ++ dq :: s ++ dq :: rest)[8]? = some '=' := rfl
    have htext : (" version=").toList ++ dq :: s ++ dq :: rest =
        ' ' :: 'v' :: 'e' :: 'r' :: 's' :: 'i' :: 'o' :: 'n' :: '=' :: dq ::
          (s ++ dq :: rest) := rfl
    have hg9 : ((" version=").toList ++ dq :: s ++ dq :: rest)[9]? = some dq := by
      rw [htext]
      simp [List.getElem?_cons_succ, List.getElem?_cons_zero]
    have hws9 : parse_ws ((" version=").toList ++ dq :: s ++ dq :: rest) 9 =
        .error (.BadChar dq) := by
      simp +decide [parse_ws, hg9]
    have hquote : (dq == sq || dq == dq) = true := by decide
    have hdrop : ((" version=").toList ++ dq :: s ++ dq :: rest).drop 10 =
        s ++ dq :: rest := rfl
    have hscan : versionLoop (((" version=").toList ++ dq :: s ++ dq :: rest).drop 10)
        dq false [] = .ok s := by
      rw [hdrop]
      have := versionLoop_append s dq rest (by decide) (by decide) false [] hall
        (by simpa using hcount)
      simpa using this
    simp only [parse_version, hws0, hend, hsw, hws8, hg8, hws9, hg9, hquote, hscan,
      beq_self_eq_true, Bool.or_true, Bool.true_or, if_true, hne, hnedot, Bool.or_self,
      Bool.false_eq_true, if_false, harith]
  · have hws0 : parse_ws ((" version=").toList ++ sq :: s ++ sq :: rest) 0 =
        .ok ⟨0, [' ']⟩ := rfl
    have hend : Ws.get_endpos ⟨0, [' ']⟩ = 1 := rfl
    have hsw : startsWith (("version").toList)
        (((" version=").toList ++ sq :: s ++ sq :: rest).drop 1) = true := rfl
    have hws8 : parse_ws ((" version=").toList ++ sq :: s ++ sq :: rest) 8 =
        .error (.BadChar '=') := rfl
    have hg8 : ((" version=").toList ++ sq :: s ++ sq :: rest)[8]? = some '=' := rfl
    have htext : (" version=").toList ++ sq :: s ++ sq :: rest =
        ' ' :: 'v' :: 'e' :: 'r' :: 's' :: 'i' :: 'o' :: 'n' :: '=' :: sq ::
          (s ++ sq :: rest) := rfl
    have hg9 : ((" version=").toList ++ sq :: s ++ sq :: rest)[9]? = some sq := by
      rw [htext]
      simp [List.getElem?_cons_succ, List.getElem?_cons_zero]
    have hws9 : parse_ws ((" version=").toList ++ sq :: s ++ sq :: rest) 9 =
        .error (.BadChar sq) := by
      simp +decide [parse_ws, hg9]
    have hquote : (sq == sq || sq == dq) = true := by decide
    have hdrop : ((" version=").toList ++ sq :: s ++ sq :: rest).drop 10 =
        s ++ sq :: rest := rfl
    have hscan : versionLoop (((" version=").toList ++ sq :: s ++ sq :: rest).drop 10)
        sq false [] = .ok s := by
      rw [hdrop]
      have := versionLoop_append s sq rest (by decide) (by decide) false [] hall
        (by simpa using hcount)
      simpa using this
    simp only [parse_version, hws0, hend, hsw, hws8, hg8, hws9, hg9, hquote, hscan,
      beq_self_eq_true, Bool.or_true, Bool.true_or, if_true, hne, hnedot, Bool.or_self,
      Bool.false_eq_true, if_false, harith]

/-- C6 counterexample: the numeral `1.99999998` has exact value strictly
below `2.0`, so the claim requires acceptance — but its nearest `f32` is
exactly `2.0` (it lies within `2^-24` of `2`), so the source rejects the
declaration with `KeywordMatchFail`. -/
theorem claim_C6_counterexample :
    parse_version ((" version=").toList ++ sq :: ("1.99999998").toList ++ [sq]) 0 =
      .error .KeywordMatchFail ∧
    numeralVal (("1.99999998").toList) < 2 := by
  constructor
  · rfl
  · have h1 : digitsToNat (numeralIp (("1.99999998").toList)) = 1 := rfl
    have h2 : digitsToNat (numeralFp (("1.99999998").toList)) = 99999998 := rfl
    have h3 : (numeralFp (("1.99999998").toList)).length = 8 := rfl
    rw [numeralVal, h1, h2, h3]
    norm_num

/-- Witness for C6: an accepted numeral (`1.0`) and a rejected one (`2.0`). -/
theorem claim_C6_witness :
    parse_version ((" version=").toList ++ dq :: ("1.0").toList ++ dq :: []) 0 =
      .ok ⟨0, 14, numeralVal (("1.0").toList)⟩ ∧
    parse_version ((" version=").toList ++ sq :: ("2.0").toList ++ sq :: []) 0 =
      .error .KeywordMatchFail := by
  constructor
  · have h := (claim_C6_version_threshold dq (("1.0").toList) [] (Or.inl rfl)
      (by decide)).1
    rw [if_neg (by decide)] at h
    exact h
  · have h := (claim_C6_version_threshold sq (("2.0").toList) [] (Or.inr rfl)
      (by decide)).1
    rw [if_pos (by decide)] at h
    exact h

/- ===== Claim C4. ===== -/

/-- C4: once `parse_full_elem` has a start tag, content, and an end tag, it
succeeds exactly when the two tag names agree character for character, and a
disagreement yields `MismatchedTags(start-tag name, end-tag name)` verbatim,
in that order. -/
theorem claim_C4_full_elem_tag_match (fuel : Nat) (text : Str) (start recurdepth : Nat)
    (stag : STag) (rc : Content) (etag : ETag)
    (hst : parse_starttag (fuel+1) text start = .ok stag)
    (hc : parse_content fuel text stag.get_endpos (recurdepth+1) = .ok rc)
    (het : parse_endtag text rc.get_endpos = .ok etag) :
    parse_full_elem (fuel+1) text start recurdepth =
      (if stag.name.s = etag.name.s then .ok (.mk stag (some rc) etag)
       else .err (.MismatchedTags stag.name.s etag.name.s)) := by
  by_cases h : stag.name.s = etag.name.s <;>
    simp [parse_full_elem, hst, hc, het, h]

/-- Witness for C4: a mismatching pair and a matching pair. -/
theorem claim_C4_witness :
    parse_full_elem 6 (("<a></b>").toList) 0 0 = .err (.MismatchedTags ['a'] ['b']) ∧
    parse_full_elem 6 (("<a></a>").toList) 0 0 =
      .ok (.mk ⟨0, 3, ⟨['a']⟩, []⟩ (some (.mk 3 [])) ⟨3, 7, ⟨['a']⟩⟩) := by
  constructor
  · have h := claim_C4_full_elem_tag_match 5 (("<a></b>").toList) 0 0
      ⟨0, 3, ⟨['a']⟩, []⟩ (.mk 3 []) ⟨3, 7, ⟨['b']⟩⟩ (by rfl) (by rfl) (by rfl)
    rw [if_neg (by decide)] at h
    exact h
  · have h := claim_C4_full_elem_tag_match 5 (("<a></a>").toList) 0 0
      ⟨0, 3, ⟨['a']⟩, []⟩ (.mk 3 []) ⟨3, 7, ⟨['a']⟩⟩ (by rfl) (by rfl) (by rfl)
    rw [if_pos (by decide)] at h
    exact h

/- ===== Claim C10: end-position lower bounds. ===== -/

theorem parse_ws_endpos {text : Str} {s : Nat} {w : Ws}
    (h : parse_ws text s = .ok w) : s < w.get_endpos := by
  cases hg : text[s]? with
  | none => simp [parse_ws, hg] at h
  | some c =>
    simp only [parse_ws, hg] at h
    by_cases hws : isWsChar c = true
    · rw [if_pos hws] at h
      injection h with h'
      subst h'
      have h1 : 1 ≤ strLen (c :: (text.drop (s+1)).takeWhile isWsChar) :=
        one_le_strLen (by simp)
      simp only [Ws.get_endpos]
      omega
    · rw [if_neg hws] at h
      exact absurd h (by simp)

theorem parse_attvalue_start {fuel : Nat} {text : Str} {s : Nat} {v : AttValue}
    (h : parse_attvalue fuel text s = .ok v) : v.start = s := by
  cases hg : text[s]? with
  | none => simp [parse_attvalue, hg] at h
  | some c =>
    simp only [parse_attvalue, hg] at h
    cases hl : attvalueLoop fuel text (c == sq) (s+1) [] [] <;> simp only [hl] at h
    case ok items =>
      injection h with h'
      subst h'
      rfl
    all_goals exact absurd h (by simp)

theorem attValue_endpos_ge (v : AttValue) : v.start + 2 ≤ v.get_endpos := by
  simp only [AttValue.get_endpos]
  omega

theorem parse_attribute_endpos {fuel : Nat} {text : Str} {s : Nat} {a : Attribute}
    (h : parse_attribute fuel text s = .ok a) : s < a.get_endpos := by
  cases hn : parse_name text s with
  | error e => simp [parse_attribute, hn] at h
  | ok name =>
    simp only [parse_attribute, hn] at h
    set pos := s + strLen name.s with hpos
    set pos1 := (match parse_ws text pos with
      | .ok ws => ws.get_endpos
      | .error _ => pos) with hpos1
    have hpos1ge : pos ≤ pos1 := by
      rw [hpos1]
      cases hw : parse_ws text pos with
      | ok ws => exact le_of_lt (parse_ws_endpos hw)
      | error e => exact le_refl _
    cases hg : text[pos1]? with
    | none => simp [hg] at h
    | some echar =>
      simp only [hg] at h
      by_cases he : (echar == '=') = true
      · rw [if_pos he] at h
        set pos2 := (match parse_ws text (pos1+1) with
          | .ok ws => ws.get_endpos
          | .error _ => pos1 + 1) with hpos2
        have hpos2ge : pos1 + 1 ≤ pos2 := by
          rw [hpos2]
          cases hw : parse_ws text (pos1+1) with
          | ok ws => exact le_of_lt (parse_ws_endpos hw)
          | error e => exact le_refl _
        cases hv : parse_attvalue fuel text pos2 with
        | ok value =>
          simp only [hv] at h
          injection h with h'
          subst h'
          simp only [Attribute.get_endpos]
          have h1 := parse_attvalue_start hv
          have h2 := attValue_endpos_ge value
          rw [h1] at h2
          omega
        | err e => simp [hv] at h
        | panic => simp [hv] at h
        | nofuel => simp [hv] at h
      · rw [if_neg he] at h
        exact absurd h (by simp)

theorem emptyLoop_ge {fuel : Nat} :
    ∀ {text : Str} {here : Nat} {attribs : List Attribute} {out : Nat × List Attribute},
    emptyLoop fuel text here attribs = .ok out → here ≤ out.1 := by
  induction fuel with
  | zero => intro text here attribs out h; simp [emptyLoop] at h
  | succ fuel ih =>
    intro text here attribs out h
    cases hg : text[here]? with
    | none => simp [emptyLoop, hg] at h
    | some c =>
      simp only [emptyLoop, hg] at h
      by_cases hc : (c == '/') = true
      · rw [if_pos hc] at h
        injection h with h'
        subst h'
        exact le_refl _
      · rw [if_neg hc] at h
        cases hw : parse_ws text here with
        | error e => simp [hw] at h
        | ok blank =>
          simp only [hw] at h
          have hge1 : here ≤ blank.get_endpos := le_of_lt (parse_ws_endpos hw)
          cases ha : parse_attribute fuel text blank.get_endpos with
          | ok attrib =>
            simp only [ha] at h
            have h1 := ih h
            have h2 := parse_attribute_endpos ha
            omega
          | err e =>
            simp only [ha] at h
            by_cases he : e = .BadChar '/'
            · rw [if_pos he] at h
              injection h with h'
              subst h'
              exact hge1
            · rw [if_neg he] at h
              exact absurd h (by simp)
          | panic => simp [ha] at h
          | nofuel => simp [ha] at h

theorem stagLoop_ge {fuel : Nat} :
    ∀ {text : Str} {here : Nat} {attribs : List Attribute} {out : Nat × List Attribute},
    stagLoop fuel text here attribs = .ok out → here ≤ out.1 := by
  induction fuel with
  | zero => intro text here attribs out h; simp [stagLoop] at h
  | succ fuel ih =>
    intro text here attribs out h
    cases hg : text[here]? with
    | none => simp [stagLoop, hg] at h
    | some c =>
      simp only [stagLoop, hg] at h
      by_cases hc : (c == '>') = true
      · rw [if_pos hc] at h
        injection h with h'
        subst h'
        exact le_refl _
      · rw [if_neg hc] at h
        cases hw : parse_ws text here with
        | error e => simp [hw] at h
        | ok blank =>
          simp only [hw] at h
          have hge1 : here ≤ blank.get_endpos := le_of_lt (parse_ws_endpos hw)
          cases ha : parse_attribute fuel text blank.get_endpos with
          | ok attrib =>
            simp only [ha] at h
            have h1 := ih h
            have h2 := parse_attribute_endpos ha
            omega
          | err e =>
            simp only [ha] at h
            by_cases he : e = .BadChar '>'
            · rw [if_pos he] at h
              injection h with h'
              subst h'
              exact hge1
            · rw [if_neg he] at h
              exact absurd h (by simp)
          | panic => simp [ha] at h
          | nofuel => simp [ha] at h

theorem parse_empty_elem_endpos {fuel : Nat} {text : Str} {s : Nat} {e : EmptyElem}
    (h : parse_empty_elem fuel text s = .ok e) : s < e.get_endpos := by
  cases hg : text[s]? with
  | none => simp [parse_empty_elem, hg] at h
  | some c0 =>
    simp only [parse_empty_elem, hg] at h
    by_cases hc0 : (c0 == '<') = true
    · rw [if_pos hc0] at h
      cases hn : parse_name text (s+1) with
      | error e' => simp [hn] at h
      | ok name =>
        simp only [hn] at h
        cases hg1 : text[s + 1 + strLen name.s]? with
        | none => simp [hg1] at h
        | some c1 =>
          simp only [hg1] at h
          by_cases hc1 : (c1 == '/') = true
          · rw [if_pos hc1] at h
            cases hg2 : text[s + 1 + strLen name.s + 1]? with
            | none => simp [hg2] at h
            | some c2 =>
              simp only [hg2] at h
              by_cases hc2 : (c2 == '>') = true
              · rw [if_pos hc2] at h
                injection h with h'
                subst h'
                simp only [EmptyElem.get_endpos]
                omega
              · rw [if_neg hc2] at h
                exact absurd h (by simp)
          · rw [if_neg hc1] at h
            cases hl : emptyLoop fuel text (s + 1 + strLen name.s) [] with
            | ok out =>
              simp only [hl] at h
              obtain ⟨here, attribs⟩ := out
              have hge := emptyLoop_ge hl
              cases hg2 : text[here]? with
              | none => simp [hg2] at h
              | some c_here =>
                simp only [hg2] at h
                by_cases hch : (c_here == '/') = true
                · rw [if_pos hch] at h
                  cases hg3 : text[here+1]? with
                  | none => simp [hg3] at h
                  | some c_last =>
                    simp only [hg3] at h
                    by_cases hcl : (c_last == '>') = true
                    · rw [if_pos hcl] at h
                      injection h with h'
                      subst h'
                      simp only [EmptyElem.get_endpos] at *
                      omega
                    · rw [if_neg hcl] at h
                      exact absurd h (by simp)
                · rw [if_neg hch] at h
                  exact absurd h (by simp)
            | err e' => simp [hl] at h
            | panic => simp [hl] at h
            | nofuel => simp [hl] at h
    · rw [if_neg hc0] at h
      exact absurd h (by simp)

theorem parse_starttag_endpos {fuel : Nat} {text : Str} {s : Nat} {st : STag}
    (h : parse_starttag fuel text s = .ok st) : s < st.get_endpos := by
  cases hg : text[s]? with
  | none => simp [parse_starttag, hg] at h
  | some c0 =>
    simp only [parse_starttag, hg] at h
    by_cases hc0 : (c0 == '<') = true
    · rw [if_pos hc0] at h
      cases hn : parse_name text (s+1) with
      | error e' => simp [hn] at h
      | ok name =>
        simp only [hn] at h
        cases hg1 : text[s + 1 + strLen name.s]? with
        | none => simp [hg1] at h
        | some c1 =>
          simp only [hg1] at h
          by_cases hc1 : (c1 == '>') = true
          · rw [if_pos hc1] at h
            injection h with h'
            subst h'
            simp only [STag.get_endpos]
            omega
          · rw [if_neg hc1] at h
            cases hl : stagLoop fuel text (s + 1 + strLen name.s) [] with
            | ok out =>
              simp only [hl] at h
              obtain ⟨here, attribs⟩ := out
              have hge := stagLoop_ge hl
              cases hg2 : text[here]? with
              | none => simp [hg2] at h
              | some c_last =>
                simp only [hg2] at h
                by_cases hcl : (c_last == '>') = true
                · rw [if_pos hcl] at h
                  injection h with h'
                  subst h'
                  simp only [STag.get_endpos] at *
                  omega
                · rw [if_neg hcl] at h
                  exact absurd h (by simp)
            | err e' => simp [hl] at h
            | panic => simp [hl] at h
            | nofuel => simp [hl] at h
    · rw [if_neg hc0] at h
      exact absurd h (by simp)

theorem parse_endtag_endpos {text : Str} {s : Nat} {et : ETag}
    (h : parse_endtag text s = .ok et) : s < et.get_endpos := by
  cases hg : text[s]? with
  | none => simp [parse_endtag, hg] at h
  | some c0 =>
    simp only [parse_endtag, hg] at h
    by_cases hc0 : (c0 == '<') = true
    · rw [if_pos hc0] at h
      cases hg1 : text[s+1]? with
      | none => simp [hg1] at h
      | some c1 =>
        simp only [hg1] at h
        by_cases hc1 : (c1 == '/') = true
        · rw [if_pos hc1] at h
          cases hn : parse_name text (s+2) with
          | error e' => simp [hn] at h
          | ok name =>
            simp only [hn] at h
            set closepos := (match parse_ws text (s + 2 + strLen name.s) with
              | .ok ws => ws.get_endpos
              | .error _ => s + 2 + strLen name.s) with hcp
            have hge : s + 2 + strLen name.s ≤ closepos := by
              rw [hcp]
              cases hw : parse_ws text (s + 2 + strLen name.s) with
              | ok ws => exact le_of_lt (parse_ws_endpos hw)
              | error e => exact le_refl _
            cases hg2 : text[closepos]? with
            | none => simp [hg2] at h
            | some c_last =>
              simp only [hg2] at h
              by_cases hcl : (c_last == '>') = true
              · rw [if_pos hcl] at h
                injection h with h'
                subst h'
                simp only [ETag.get_endpos]
                omega
              · rw [if_neg hcl] at h
                exact absurd h (by simp)
        · rw [if_neg hc1] at h
          exact absurd h (by simp)
    · rw [if_neg hc0] at h
      exact absurd h (by simp)

theorem parse_comment_start {text : Str} {s : Nat} {c : Comment}
    (h : parse_comment text s = .ok c) : c.start = s := by
  cases hg : text[s]? with
  | none => simp [parse_comment, hg] at h
  | some ch0 =>
    simp only [parse_comment, hg] at h
    by_cases h0 : (ch0 == '<') = true
    · rw [if_pos h0] at h
      cases hg1 : text[s+1]? with
      | none => simp [hg1] at h
      | some ch1 =>
        simp only [hg1] at h
        by_cases h1 : (ch1 == '!') = true
        · rw [if_pos h1] at h
          cases hg2 : text[s+2]? with
          | none => simp [hg2] at h
          | some ch2 =>
            simp only [hg2] at h
            cases hg3 : text[s+3]? with
            | none => simp [hg3] at h
            | some ch3 =>
              simp only [hg3] at h
              by_cases h23 : (ch2 == '-' && ch3 == '-') = true
              · rw [if_pos h23] at h
                cases hl : commentLoop (text.drop (s+4)) [] 0 with
                | ok buf =>
                  simp only [hl] at h
                  injection h with h'
                  subst h'
                  rfl
                | error e => simp [hl] at h
              · rw [if_neg h23] at h
                by_cases h2 : (ch2 == '-') = true
                · rw [if_pos h2] at h
                  exact absurd h (by simp)
                · rw [if_neg h2] at h
                  exact absurd h (by simp)
        · rw [if_neg h1] at h
          exact absurd h (by simp)
    · rw [if_neg h0] at h
      exact absurd h (by simp)

theorem parse_pi_start {text : Str} {s : Nat} {p : ProcInstr}
    (h : parse_pi text s = .ok p) : p.start = s := by
  cases hg : text[s]? with
  | none => simp [parse_pi, hg] at h
  | some ch0 =>
    simp only [parse_pi, hg] at h
    by_cases h0 : (ch0 == '<') = true
    · rw [if_pos h0] at h
      cases hg1 : text[s+1]? with
      | none => simp [hg1] at h
      | some ch1 =>
        simp only [hg1] at h
        by_cases h1 : (ch1 == '?') = true
        · rw [if_pos h1] at h
          cases ht : parse_pitarget text (s+2) with
          | error e => simp [ht] at h
          | ok target =>
            simp only [ht] at h
            cases hw : parse_ws text (s + strLen target.name.s + 2) with
            | ok ws =>
              simp only [hw] at h
              cases hl : piLoop (text.drop ws.get_endpos) [] false with
              | ok buf =>
                simp only [hl] at h
                injection h with h'
                subst h'
                rfl
              | error e => simp [hl] at h
            | error e =>
              simp only [hw] at h
              cases e with
              | BadChar bc =>
                simp only at h
                by_cases hbc : (bc == '?') = true
                · rw [if_pos hbc] at h
                  cases hg2 : text[s + strLen target.name.s + 2 + 1]? with
                  | none => simp [hg2] at h
                  | some chl =>
                    simp only [hg2] at h
                    by_cases hcl : (chl == '>') = true
                    · rw [if_pos hcl] at h
                      injection h with h'
                      subst h'
                      rfl
                    · rw [if_neg hcl] at h
                      exact absurd h (by simp)
                · rw [if_neg hbc] at h
                  exact absurd h (by simp)
              | TextEnd => simp at h
              | MaxRecurDepth d => simp at h
              | NoValidVariant => simp at h
              | IllegalSubstr => simp at h
              | ReservedNameXml => simp at h
              | MismatchedTags a b => simp at h
              | BadCDATAStart => simp at h
              | NoData => simp at h
              | BadXDeclStart => simp at h
              | KeywordMatchFail => simp at h
        · rw [if_neg h1] at h
          exact absurd h (by simp)
    · rw [if_neg h0] at h
      exact absurd h (by simp)

theorem chardataLoop_ok_ne_nil :
    ∀ {rem data : Str} {count : Nat} {out : Str},
    chardataLoop rem data count = .ok out → out ≠ [] := by
  intro rem
  induction rem with
  | nil => intro data count out h; simp [chardataLoop] at h
  | cons c rest ih =>
    intro data count out h
    simp only [chardataLoop] at h
    by_cases hterm : (c == '<' || c == '&') = true
    · rw [if_pos hterm] at h
      by_cases hlen : 0 < data.length
      · rw [if_pos hlen] at h
        injection h with h'
        subst h'
        exact List.length_pos.mp hlen
      · rw [if_neg hlen] at h
        exact absurd h (by simp)
    · rw [if_neg hterm] at h
      by_cases hrb : (c == ']') = true
      · rw [if_pos hrb] at h
        exact ih h
      · rw [if_neg hrb] at h
        by_cases hgt : (c == '>') = true
        · rw [if_pos hgt] at h
          by_cases h2 : 2 ≤ count
          · rw [if_pos h2] at h
            exact absurd h (by simp)
          · rw [if_neg h2] at h
            exact ih h
        · rw [if_neg hgt] at h
          exact ih h

theorem parse_chardata_shape {text : Str} {s : Nat} {cd : CharData}
    (h : parse_chardata text s = .ok cd) : cd.start = s ∧ cd.text ≠ [] := by
  cases hl : chardataLoop (text.drop s) [] 0 with
  | ok data =>
    simp only [parse_chardata, hl] at h
    injection h with h'
    subst h'
    exact ⟨rfl, chardataLoop_ok_ne_nil hl⟩
  | error e => simp [parse_chardata, hl] at h

theorem parse_cdsect_start {text : Str} {s : Nat} {cd : CDSect}
    (h : parse_cdsect text s = .ok cd) : cd.start = s := by
  by_cases hb : s > text.length
  · simp [parse_cdsect, hb] at h
  · simp only [parse_cdsect, if_neg hb] at h
    by_cases hp : startsWith (("<![CDATA[").toList) (text.drop s) = true
    · rw [if_pos hp] at h
      cases hl : cdsectLoop (text.drop (s+9)) [] 0 with
      | ok data =>
        simp only [hl] at h
        injection h with h'
        subst h'
        rfl
      | err e => simp [hl] at h
      | panic => simp [hl] at h
      | nofuel => simp [hl] at h
    · rw [if_neg hp] at h
      exact absurd h (by simp)

theorem reference_text_len_pos (r : Reference) : 2 ≤ r.text_len := by
  cases r <;> simp [Reference.text_len]

theorem lt_of_getElem_some {l : Str} {i : Nat} {c : Char} (h : l[i]? = some c) :
    i < l.length := by
  by_contra hcon
  rw [List.getElem?_eq_none (by omega)] at h
  exact absurd h (by simp)

theorem cdsectLoop_ne_nofuel : ∀ (rem data : Str) (count : Nat),
    cdsectLoop rem data count ≠ PStep.nofuel := by
  intro rem
  induction rem with
  | nil => intro data count; simp [cdsectLoop]
  | cons c rest ih =>
    intro data count
    simp only [cdsectLoop]
    by_cases h1 : (c == ']') = true
    · rw [if_pos h1]; exact ih _ _
    · rw [if_neg h1]
      by_cases h2 : (c == '>') = true
      · rw [if_pos h2]
        by_cases h3 : count ≥ 2
        · rw [if_pos h3]
          cases hgl : data.getLast? with
          | none => simp
          | some c_ult =>
            simp only [hgl]
            cases hgl2 : data.dropLast.getLast? with
            | none => simp
            | some c_pen =>
              simp only [hgl2]
              by_cases h4 : (c_pen == ']') = true
              · rw [if_pos h4]
                by_cases h5 : (c_ult == ']') = true
                · rw [if_pos h5]; simp
                · rw [if_neg h5]; simp
              · rw [if_neg h4]; simp
        · rw [if_neg h3]; exact ih _ _
      · rw [if_neg h2]; exact ih _ _

theorem parse_cdsect_ne_nofuel (text : Str) (start : Nat) :
    parse_cdsect text start ≠ PStep.nofuel := by
  simp only [parse_cdsect]
  by_cases hb : start > text.length
  · rw [if_pos hb]; simp
  · rw [if_neg hb]
    by_cases hp : startsWith (("<![CDATA[").toList) (text.drop start) = true
    · rw [if_pos hp]
      cases hl : cdsectLoop (text.drop (start+9)) [] 0 with
      | ok data => simp
      | err e => simp
      | panic => simp
      | nofuel => exact absurd hl (cdsectLoop_ne_nofuel _ _ _)
    · rw [if_neg hp]; simp

theorem parse_starttag_ok_lt {fuel : Nat} {text : Str} {s : Nat} {st : STag}
    (h : parse_starttag fuel text s = .ok st) : s < text.length := by
  cases hg : text[s]? with
  | none => simp [parse_starttag, hg] at h
  | some c => exact lt_of_getElem_some hg

theorem procinstr_endpos_lb (p : ProcInstr) : p.start + 4 ≤ p.get_endpos := by
  simp only [ProcInstr.get_endpos]
  cases hs : p.space <;> cases ha : p.arg <;> simp <;> omega

theorem attvalueLoop_nf : ∀ (fuel : Nat) (text : Str) (single : Bool) (idx : Nat)
    (items : List AttValueItem) (current : Str),
    text.length < fuel + idx → 0 < fuel →
    attvalueLoop fuel text single idx items current ≠ PStep.nofuel := by
  intro fuel
  induction fuel with
  | zero => intro text single idx items current h1 h2; exact absurd h2 (lt_irrefl 0)
  | succ fuel ih =>
    intro text single idx items current h1 h2
    cases hg : text[idx]? with
    | none => simp [attvalueLoop, hg]
    | some c =>
      have hlt := lt_of_getElem_some hg
      simp only [attvalueLoop, hg]
      by_cases hq1 : (c == sq && single) = true
      · rw [if_pos hq1]; simp
      · rw [if_neg hq1]
        by_cases hq2 : (c == dq && !single) = true
        · rw [if_pos hq2]; simp
        · rw [if_neg hq2]
          by_cases hlt2 : (c == '<') = true
          · rw [if_pos hlt2]; simp
          · rw [if_neg hlt2]
            by_cases hamp : (c == '&') = true
            · rw [if_pos hamp]
              cases hr : parse_reference text idx with
              | error e => simp [hr]
              | ok reference =>
                simp only [hr]
                refine ih text single _ _ _ ?_ (by omega)
                have hrl := reference_text_len_pos reference
                simp only [AttValueItem.text_len]
                omega
            · rw [if_neg hamp]
              exact ih text single _ _ _ (by omega) (by omega)

theorem parse_attvalue_nf (fuel : Nat) (text : Str) (start : Nat)
    (h1 : text.length < fuel + start) (h2 : 0 < fuel) :
    parse_attvalue fuel text start ≠ PStep.nofuel := by
  simp only [parse_attvalue]
  cases hg : text[start]? with
  | none => simp
  | some c0 =>
    simp only [hg]
    cases hl : attvalueLoop fuel text (c0 == sq) (start+1) [] [] with
    | ok items => simp
    | err e => simp
    | panic => simp
    | nofuel => exact absurd hl (attvalueLoop_nf fuel text _ _ _ _ (by omega) h2)

theorem parse_attribute_nf (fuel : Nat) (text : Str) (start : Nat)
    (h1 : text.length < fuel + start) (h2 : 0 < fuel) :
    parse_attribute fuel text start ≠ PStep.nofuel := by
  cases hn : parse_name text start with
  | error e => simp [parse_attribute, hn]
  | ok name =>
    simp only [parse_attribute, hn]
    set pos := start + strLen name.s with hpos
    set pos1 := (match parse_ws text pos with
      | .ok ws => ws.get_endpos
      | .error _ => pos) with hpos1
    have hpos1ge : pos ≤ pos1 := by
      rw [hpos1]
      cases hw : parse_ws text pos with
      | ok ws => exact le_of_lt (parse_ws_endpos hw)
      | error e => exact le_refl _
    cases hg : text[pos1]? with
    | none => simp [hg]
    | some echar =>
      simp only [hg]
      by_cases he : (echar == '=') = true
      · rw [if_pos he]
        set pos2 := (match parse_ws text (pos1+1) with
          | .ok ws => ws.get_endpos
          | .error _ => pos1 + 1) with hpos2
        have hpos2ge : pos1 + 1 ≤ pos2 := by
          rw [hpos2]
          cases hw : parse_ws text (pos1+1) with
          | ok ws => exact le_of_lt (parse_ws_endpos hw)
          | error e => exact le_refl _
        cases hv : parse_attvalue fuel text pos2 with
        | ok value => simp [hv]
        | err e2 => simp [hv]
        | panic => simp [hv]
        | nofuel => exact absurd hv (parse_attvalue_nf fuel text pos2 (by omega) h2)
      · rw [if_neg he]; simp

theorem emptyLoop_nf : ∀ (fuel : Nat) (text : Str) (here : Nat) (attribs : List Attribute),
    text.length < fuel + here → 0 < fuel →
    emptyLoop fuel text here attribs ≠ PStep.nofuel := by
  intro fuel
  induction fuel with
  | zero => intro text here attribs h1 h2; exact absurd h2 (lt_irrefl 0)
  | succ fuel ih =>
    intro text here attribs h1 h2
    cases hg : text[here]? with
    | none => simp [emptyLoop, hg]
    | some c =>
      have hlt := lt_of_getElem_some hg
      simp only [emptyLoop, hg]
      by_cases hc : (c == '/') = true
      · rw [if_pos hc]; simp
      · rw [if_neg hc]
        cases hw : parse_ws text here with
        | error e => simp [hw]
        | ok blank =>
          simp only [hw]
          have hbe := parse_ws_endpos hw
          cases ha : parse_attribute fuel text blank.get_endpos with
          | ok attrib =>
            simp only [ha]
            have hae := parse_attribute_endpos ha
            exact ih text attrib.get_endpos (attribs ++ [attrib]) (by omega) (by omega)
          | err e =>
            simp only [ha]
            by_cases he : e = XmlError.BadChar '/'
            · rw [if_pos he]; simp
            · rw [if_neg he]; simp
          | panic => simp [ha]
          | nofuel => exact absurd ha (parse_attribute_nf fuel text blank.get_endpos (by omega) (by omega))

theorem stagLoop_nf : ∀ (fuel : Nat) (text : Str) (here : Nat) (attribs : List Attribute),
    text.length < fuel + here → 0 < fuel →
    stagLoop fuel text here attribs ≠ PStep.nofuel := by
  intro fuel
  induction fuel with
  | zero => intro text here attribs h1 h2; exact absurd h2 (lt_irrefl 0)
  | succ fuel ih =>
    intro text here attribs h1 h2
    cases hg : text[here]? with
    | none => simp [stagLoop, hg]
    | some c =>
      have hlt := lt_of_getElem_some hg
      simp only [stagLoop, hg]
      by_cases hc : (c == '>') = true
      · rw [if_pos hc]; simp
      · rw [if_neg hc]
        cases hw : parse_ws text here with
        | error e => simp [hw]
        | ok blank =>
          simp only [hw]
          have hbe := parse_ws_endpos hw
          cases ha : parse_attribute fuel text blank.get_endpos with
          | ok attrib =>
            simp only [ha]
            have hae := parse_attribute_endpos ha
            exact ih text attrib.get_endpos (attribs ++ [attrib]) (by omega) (by omega)
          | err e =>
            simp only [ha]
            by_cases he : e = XmlError.BadChar '>'
            · rw [if_pos he]; simp
            · rw [if_neg he]; simp
          | panic => simp [ha]
          | nofuel => exact absurd ha (parse_attribute_nf fuel text blank.get_endpos (by omega) (by omega))

theorem parse_empty_elem_nf (fuel : Nat) (text : Str) (start : Nat)
    (h1 : text.length < fuel + start) (h2 : 0 < fuel) :
    parse_empty_elem fuel text start ≠ PStep.nofuel := by
  cases hg : text[start]? with
  | none => simp [parse_empty_elem, hg]
  | some c0 =>
    simp only [parse_empty_elem, hg]
    by_cases hc0 : (c0 == '<') = true
    · rw [if_pos hc0]
      cases hn : parse_name text (start+1) with
      | error e => simp [hn]
      | ok name =>
        simp only [hn]
        cases hg1 : text[start + 1 + strLen name.s]? with
        | none => simp [hg1]
        | some c1 =>
          simp only [hg1]
          by_cases hc1 : (c1 == '/') = true
          · rw [if_pos hc1]
            cases hg2 : text[start + 1 + strLen name.s + 1]? with
            | none => simp [hg2]
            | some c2 =>
              simp only [hg2]
              by_cases hc2 : (c2 == '>') = true
              · rw [if_pos hc2]; simp
              · rw [if_neg hc2]; simp
          · rw [if_neg hc1]
            cases hl : emptyLoop fuel text (start + 1 + strLen name.s) [] with
            | ok out =>
              simp only [hl]
              obtain ⟨here, attribs⟩ := out
              cases hg2 : text[here]? with
              | none => simp [hg2]
              | some ch =>
                simp only [hg2]
                by_cases hch : (ch == '/') = true
                · rw [if_pos hch]
                  cases hg3 : text[here+1]? with
                  | none => simp [hg3]
                  | some cl =>
                    simp only [hg3]
                    by_cases hcl : (cl == '>') = true
                    · rw [if_pos hcl]; simp
                    · rw [if_neg hcl]; simp
                · rw [if_neg hch]; simp
            | err e => simp [hl]
            | panic => simp [hl]
            | nofuel => exact absurd hl (emptyLoop_nf fuel text _ [] (by omega) h2)
    · rw [if_neg hc0]; simp

theorem parse_starttag_nf (fuel : Nat) (text : Str) (start : Nat)
    (h1 : text.length < fuel + start) (h2 : 0 < fuel) :
    parse_starttag fuel text start ≠ PStep.nofuel := by
  cases hg : text[start]? with
  | none => simp [parse_starttag, hg]
  | some c0 =>
    simp only [parse_starttag, hg]
    by_cases hc0 : (c0 == '<') = true
    · rw [if_pos hc0]
      cases hn : parse_name text (start+1) with
      | error e => simp [hn]
      | ok name =>
        simp only [hn]
        cases hg1 : text[start + 1 + strLen name.s]? with
        | none => simp [hg1]
        | some c1 =>
          simp only [hg1]
          by_cases hc1 : (c1 == '>') = true
          · rw [if_pos hc1]; simp
          · rw [if_neg hc1]
            cases hl : stagLoop fuel text (start + 1 + strLen name.s) [] with
            | ok out =>
              simp only [hl]
              obtain ⟨here, attribs⟩ := out
              cases hg2 : text[here]? with
              | none => simp [hg2]
              | some cl =>
                simp only [hg2]
                by_cases hcl : (cl == '>') = true
                · rw [if_pos hcl]; simp
                · rw [if_neg hcl]; simp
            | err e => simp [hl]
            | panic => simp [hl]
            | nofuel => exact absurd hl (stagLoop_nf fuel text _ [] (by omega) h2)
    · rw [if_neg hc0]; simp

theorem parse_content_item_past {text : Str} {p : Nat} (hp : text.length < p) :
    ∀ (fuel d : Nat), 0 < fuel → parse_content_item fuel text p d = PStep.panic := by
  intro fuel d hf
  cases fuel with
  | zero => exact absurd hf (lt_irrefl 0)
  | succ f =>
    have hnone : text[p]? = none := List.getElem?_eq_none (by omega)
    have hdrop : text.drop p = [] := List.drop_eq_nil_of_le (by omega)
    simp [parse_content_item, parse_reference, parse_comment, parse_pi, parse_chardata,
      parse_cdsect, hnone, hdrop, chardataLoop, hp]

theorem getLast?_snoc {α : Type} (l : List α) (a : α) : (l ++ [a]).getLast? = some a := by
  simp

theorem engine_endpos : ∀ fuel : Nat,
    (∀ (text : Str) (s d : Nat) (e : Elem),
      parse_elem fuel text s d = .ok e → s < e.get_endpos) ∧
    (∀ (text : Str) (s d : Nat) (f : FullElem),
      parse_full_elem fuel text s d = .ok f → s < f.get_endpos) ∧
    (∀ (text : Str) (s d : Nat) (c : Content),
      parse_content fuel text s d = .ok c → c.start = s ∧ s ≤ c.get_endpos) ∧
    (∀ (text : Str) (pos d : Nat) (items out : List ContentItem),
      contentLoop fuel text pos d items = .ok out →
      out = items ∨ ∃ last, out.getLast? = some last ∧ pos < last.get_endpos) ∧
    (∀ (text : Str) (s d : Nat) (item : ContentItem),
      parse_content_item fuel text s d = .ok item → s < item.get_endpos) := by
  intro fuel
  induction fuel with
  | zero =>
    refine ⟨?_, ?_, ?_, ?_, ?_⟩
    · intro text s d e h; simp [parse_elem] at h
    · intro text s d f h; simp [parse_full_elem] at h
    · intro text s d c h; simp [parse_content] at h
    · intro text pos d items out h; simp [contentLoop] at h
    · intro text s d item h; simp [parse_content_item] at h
  | succ fuel ih =>
    obtain ⟨ihE, ihF, ihC, ihL, ihI⟩ := ih
    have hF : ∀ (text : Str) (s d : Nat) (f : FullElem),
        parse_full_elem (fuel+1) text s d = .ok f → s < f.get_endpos := by
      intro text s d f h
      cases hst : parse_starttag (fuel+1) text s with
      | err e => simp [parse_full_elem, hst] at h
      | panic => simp [parse_full_elem, hst] at h
      | nofuel => simp [parse_full_elem, hst] at h
      | ok stag =>
        simp only [parse_full_elem, hst] at h
        have hsp : s < stag.get_endpos := parse_starttag_endpos hst
        cases hc : parse_content fuel text stag.get_endpos (d+1) with
        | ok content =>
          simp only [hc] at h
          have hcc := ihC text stag.get_endpos (d+1) content hc
          cases he : parse_endtag text content.get_endpos with
          | error e => simp [he] at h
          | ok etag =>
            simp only [he] at h
            by_cases hn : (stag.name.s == etag.name.s) = true
            · rw [if_pos hn] at h
              injection h with h'
              subst h'
              have hep := parse_endtag_endpos he
              have hfg : FullElem.get_endpos ⟨stag, some content, etag⟩ =
                  ETag.get_endpos etag := rfl
              rw [hfg]
              omega
            · rw [if_neg hn] at h
              exact absurd h (by simp)
        | err e =>
          simp only [hc] at h
          cases he : parse_endtag text stag.get_endpos with
          | error e2 => simp [he] at h
          | ok etag =>
            simp only [he] at h
            by_cases hn : (stag.name.s == etag.name.s) = true
            · rw [if_pos hn] at h
              injection h with h'
              subst h'
              have hep := parse_endtag_endpos he
              have hfg : FullElem.get_endpos ⟨stag, none, etag⟩ =
                  ETag.get_endpos etag := rfl
              rw [hfg]
              omega
            · rw [if_neg hn] at h
              exact absurd h (by simp)
        | panic => simp [hc] at h
        | nofuel => simp [hc] at h
    have hE : ∀ (text : Str) (s d : Nat) (e : Elem),
        parse_elem (fuel+1) text s d = .ok e → s < e.get_endpos := by
      intro text s d e h
      cases hem : parse_empty_elem (fuel+1) text s with
      | ok empty =>
        simp only [parse_elem, hem] at h
        injection h with h'
        subst h'
        have := parse_empty_elem_endpos hem
        simpa [Elem.get_endpos] using this
      | panic => simp [parse_elem, hem] at h
      | nofuel => simp [parse_elem, hem] at h
      | err e0 =>
        cases e0 <;> simp only [parse_elem, hem] at h
        all_goals
          first
          | exact absurd h (by simp)
          | (cases hfe : parse_full_elem fuel text s (d+1) with
             | ok full =>
               simp only [hfe] at h
               injection h with h'
               subst h'
               have := ihF text s (d+1) full hfe
               simpa [Elem.get_endpos] using this
             | err e2 => simp [hfe] at h
             | panic => simp [hfe] at h
             | nofuel => simp [hfe] at h)
    have hC : ∀ (text : Str) (s d : Nat) (c : Content),
        parse_content (fuel+1) text s d = .ok c → c.start = s ∧ s ≤ c.get_endpos := by
      intro text s d c h
      cases hl : contentLoop fuel text s d [] with
      | ok items =>
        simp only [parse_content, hl] at h
        injection h with h'
        subst h'
        refine ⟨rfl, ?_⟩
        rcases ihL text s d [] items hl with h4 | ⟨last, hlast, hpos⟩
        · simp [Content.get_endpos, Content.start, Content.items, h4]
        · simp only [Content.get_endpos, Content.items, hlast]
          omega
      | err e => simp [parse_content, hl] at h
      | panic => simp [parse_content, hl] at h
      | nofuel => simp [parse_content, hl] at h
    have hL : ∀ (text : Str) (pos d : Nat) (items out : List ContentItem),
        contentLoop (fuel+1) text pos d items = .ok out →
        out = items ∨ ∃ last, out.getLast? = some last ∧ pos < last.get_endpos := by
      intro text pos d items out h
      cases hit : parse_content_item fuel text pos (d+1) with
      | ok item =>
        simp only [contentLoop, hit] at h
        have hpe := ihI text pos (d+1) item hit
        rcases ihL text item.get_endpos d (items ++ [item]) out h with h4 | ⟨last, hlast, hpos2⟩
        · right
          exact ⟨item, by rw [h4]; exact getLast?_snoc items item, hpe⟩
        · right
          exact ⟨last, hlast, lt_trans hpe hpos2⟩
      | err e0 =>
        simp only [contentLoop, hit] at h
        injection h with h'
        exact Or.inl h'.symm
      | panic => simp [contentLoop, hit] at h
      | nofuel => simp [contentLoop, hit] at h
    have hI : ∀ (text : Str) (s d : Nat) (item : ContentItem),
        parse_content_item (fuel+1) text s d = .ok item → s < item.get_endpos := by
      intro text s d item h
      cases hr : parse_reference text s with
      | ok reference =>
        simp only [parse_content_item, hr] at h
        injection h with h'
        subst h'
        have := reference_text_len_pos reference
        simp only [ContentItem.get_endpos]
        omega
      | error e1 =>
        cases hcm : parse_comment text s with
        | ok comment =>
          simp only [parse_content_item, hr, hcm] at h
          injection h with h'
          subst h'
          have h1 := parse_comment_start hcm
          simp only [ContentItem.get_endpos, Comment.get_endpos]
          omega
        | error e2 =>
          cases hpi : parse_pi text s with
          | ok pi0 =>
            simp only [parse_content_item, hr, hcm, hpi] at h
            injection h with h'
            subst h'
            have h1 := parse_pi_start hpi
            have h2 := procinstr_endpos_lb pi0
            simp only [ContentItem.get_endpos]
            omega
          | error e3 =>
            cases hcd : parse_chardata text s with
            | ok chardata =>
              simp only [parse_content_item, hr, hcm, hpi, hcd] at h
              injection h with h'
              subst h'
              obtain ⟨h1, h2⟩ := parse_chardata_shape hcd
              have h3 := one_le_strLen h2
              simp only [ContentItem.get_endpos, CharData.get_endpos]
              omega
            | error e4 =>
              cases hcs : parse_cdsect text s with
              | ok cdsect =>
                simp only [parse_content_item, hr, hcm, hpi, hcd, hcs] at h
                injection h with h'
                subst h'
                have h1 := parse_cdsect_start hcs
                simp only [ContentItem.get_endpos, CDSect.get_endpos]
                omega
              | err e5 =>
                simp only [parse_content_item, hr, hcm, hpi, hcd, hcs] at h
                cases hel : parse_elem fuel text s (d+1) with
                | ok elem =>
                  simp only [hel] at h
                  injection h with h'
                  subst h'
                  have := ihE text s (d+1) elem hel
                  simpa [ContentItem.get_endpos] using this
                | err e6 => simp [hel] at h
                | panic => simp [hel] at h
                | nofuel => simp [hel] at h
              | panic => simp [parse_content_item, hr, hcm, hpi, hcd, hcs] at h
              | nofuel => simp [parse_content_item, hr, hcm, hpi, hcd, hcs] at h
    exact ⟨hE, hF, hC, hL, hI⟩

theorem parse_content_item_endpos {fuel : Nat} {text : Str} {s d : Nat} {item : ContentItem}
    (h : parse_content_item fuel text s d = .ok item) : s < item.get_endpos := by
  exact (engine_endpos fuel).2.2.2.2 text s d item h

theorem engine_level (text : Str) (p : Nat)
    (ihCO : ∀ p', p < p' → p ≤ text.length → ∀ fuel d,
      5 * (text.length + 1 - p') + 7 ≤ fuel → parse_content fuel text p' d ≠ PStep.nofuel)
    (ihCL : ∀ p', p < p' → p ≤ text.length → ∀ fuel d items,
      5 * (text.length + 1 - p') + 6 ≤ fuel → contentLoop fuel text p' d items ≠ PStep.nofuel) :
    (∀ fuel d, 5 * (text.length + 1 - p) + 3 ≤ fuel →
      parse_full_elem fuel text p d ≠ PStep.nofuel) ∧
    (∀ fuel d, 5 * (text.length + 1 - p) + 4 ≤ fuel →
      parse_elem fuel text p d ≠ PStep.nofuel) ∧
    (∀ fuel d, 5 * (text.length + 1 - p) + 5 ≤ fuel →
      parse_content_item fuel text p d ≠ PStep.nofuel) ∧
    (∀ fuel d items, 5 * (text.length + 1 - p) + 6 ≤ fuel →
      contentLoop fuel text p d items ≠ PStep.nofuel) ∧
    (∀ fuel d, 5 * (text.length + 1 - p) + 7 ≤ fuel →
      parse_content fuel text p d ≠ PStep.nofuel) := by
  have hFU : ∀ fuel d, 5 * (text.length + 1 - p) + 3 ≤ fuel →
      parse_full_elem fuel text p d ≠ PStep.nofuel := by
    intro fuel d hf
    obtain ⟨f, rfl⟩ : ∃ f, fuel = f + 1 := ⟨fuel - 1, by omega⟩
    cases hst : parse_starttag (f+1) text p with
    | err e => simp [parse_full_elem, hst]
    | panic => simp [parse_full_elem, hst]
    | nofuel => exact absurd hst (parse_starttag_nf (f+1) text p (by omega) (by omega))
    | ok stag =>
      have hpL : p < text.length := parse_starttag_ok_lt hst
      have hsp : p < stag.get_endpos := parse_starttag_endpos hst
      simp only [parse_full_elem, hst]
      cases hc : parse_content f text stag.get_endpos (d+1) with
      | ok content =>
        simp only [hc]
        cases he : parse_endtag text content.get_endpos with
        | error e => simp [he]
        | ok etag =>
          simp only [he]
          by_cases hn : (stag.name.s == etag.name.s) = true
          · rw [if_pos hn]; simp
          · rw [if_neg hn]; simp
      | err e =>
        simp only [hc]
        cases he : parse_endtag text stag.get_endpos with
        | error e2 => simp [he]
        | ok etag =>
          simp only [he]
          by_cases hn : (stag.name.s == etag.name.s) = true
          · rw [if_pos hn]; simp
          · rw [if_neg hn]; simp
      | panic => simp [hc]
      | nofuel =>
        exact absurd hc (ihCO stag.get_endpos hsp (le_of_lt hpL) f (d+1) (by omega))
  have hEL : ∀ fuel d, 5 * (text.length + 1 - p) + 4 ≤ fuel →
      parse_elem fuel text p d ≠ PStep.nofuel := by
    intro fuel d hf
    obtain ⟨f, rfl⟩ : ∃ f, fuel = f + 1 := ⟨fuel - 1, by omega⟩
    cases hem : parse_empty_elem (f+1) text p with
    | ok empty => simp [parse_elem, hem]
    | panic => simp [parse_elem, hem]
    | nofuel => exact absurd hem (parse_empty_elem_nf (f+1) text p (by omega) (by omega))
    | err e0 =>
      cases e0 <;> simp only [parse_elem, hem]
      case TextEnd => simp
      all_goals
        cases hfe : parse_full_elem f text p (d+1) with
        | ok full => simp [hfe]
        | err e2 => simp [hfe]
        | panic => simp [hfe]
        | nofuel => exact absurd hfe (hFU f (d+1) (by omega))
  have hCI : ∀ fuel d, 5 * (text.length + 1 - p) + 5 ≤ fuel →
      parse_content_item fuel text p d ≠ PStep.nofuel := by
    intro fuel d hf
    obtain ⟨f, rfl⟩ : ∃ f, fuel = f + 1 := ⟨fuel - 1, by omega⟩
    cases hr : parse_reference text p with
    | ok reference => simp [parse_content_item, hr]
    | error e1 =>
      cases hcm : parse_comment text p with
      | ok comment => simp [parse_content_item, hr, hcm]
      | error e2 =>
        cases hpi : parse_pi text p with
        | ok pi0 => simp [parse_content_item, hr, hcm, hpi]
        | error e3 =>
          cases hcd : parse_chardata text p with
          | ok cd => simp [parse_content_item, hr, hcm, hpi, hcd]
          | error e4 =>
            cases hcs : parse_cdsect text p with
            | ok c => simp [parse_content_item, hr, hcm, hpi, hcd, hcs]
            | panic => simp [parse_content_item, hr, hcm, hpi, hcd, hcs]
            | nofuel => exact absurd hcs (parse_cdsect_ne_nofuel text p)
            | err e5 =>
              simp only [parse_content_item, hr, hcm, hpi, hcd, hcs]
              cases hel : parse_elem f text p (d+1) with
              | ok elem => simp [hel]
              | err e6 => simp [hel]
              | panic => simp [hel]
              | nofuel => exact absurd hel (hEL f (d+1) (by omega))
  have hCL : ∀ fuel d items, 5 * (text.length + 1 - p) + 6 ≤ fuel →
      contentLoop fuel text p d items ≠ PStep.nofuel := by
    intro fuel d items hf
    obtain ⟨f, rfl⟩ : ∃ f, fuel = f + 1 := ⟨fuel - 1, by omega⟩
    by_cases hpL : text.length < p
    · have hitem := parse_content_item_past hpL f (d+1) (by omega)
      simp [contentLoop, hitem]
    · push_neg at hpL
      cases hit : parse_content_item f text p (d+1) with
      | ok item =>
        simp only [contentLoop, hit]
        have hpe : p < item.get_endpos := parse_content_item_endpos hit
        exact ihCL item.get_endpos hpe hpL f d (items ++ [item]) (by omega)
      | err e => simp [contentLoop, hit]
      | panic => simp [contentLoop, hit]
      | nofuel => exact absurd hit (hCI f (d+1) (by omega))
  have hCO : ∀ fuel d, 5 * (text.length + 1 - p) + 7 ≤ fuel →
      parse_content fuel text p d ≠ PStep.nofuel := by
    intro fuel d hf
    obtain ⟨f, rfl⟩ : ∃ f, fuel = f + 1 := ⟨fuel - 1, by omega⟩
    cases hl : contentLoop f text p d [] with
    | ok items => simp [parse_content, hl]
    | err e => simp [parse_content, hl]
    | panic => simp [parse_content, hl]
    | nofuel => exact absurd hl (hCL f d [] (by omega))
  exact ⟨hFU, hEL, hCI, hCL, hCO⟩

theorem engine_terminates (text : Str) : ∀ (n p : Nat), text.length + 1 - p ≤ n →
    (∀ fuel d, 5 * (text.length + 1 - p) + 3 ≤ fuel →
      parse_full_elem fuel text p d ≠ PStep.nofuel) ∧
    (∀ fuel d, 5 * (text.length + 1 - p) + 4 ≤ fuel →
      parse_elem fuel text p d ≠ PStep.nofuel) ∧
    (∀ fuel d, 5 * (text.length + 1 - p) + 5 ≤ fuel →
      parse_content_item fuel text p d ≠ PStep.nofuel) ∧
    (∀ fuel d items, 5 * (text.length + 1 - p) + 6 ≤ fuel →
      contentLoop fuel text p d items ≠ PStep.nofuel) ∧
    (∀ fuel d, 5 * (text.length + 1 - p) + 7 ≤ fuel →
      parse_content fuel text p d ≠ PStep.nofuel) := by
  intro n
  induction n with
  | zero =>
    intro p hp
    exact engine_level text p
      (fun p' h1 h2 => absurd h2 (by omega))
      (fun p' h1 h2 => absurd h2 (by omega))
  | succ n ih =>
    intro p hp
    refine engine_level text p ?_ ?_
    · intro p' hpp hpL fuel d hf
      exact ((ih p' (by omega)).2.2.2.2) fuel d hf
    · intro p' hpp hpL fuel d items hf
      exact ((ih p' (by omega)).2.2.2.1) fuel d items hf

/-- **C10**: the claim's two parts over the fuelled embedding of the mutually
recursive element/content engine.  (1) No zero-width node: every successfully
parsed content item has an end offset strictly greater than its start offset,
so each content-loop iteration and each nested element recursion strictly
advances the position.  (2) Termination: for every finite input and every
start offset there is a fuel bound on which `parse_elem`, `parse_full_elem`,
`parse_content` and `parse_content_item` complete (the fuelled computation
does not run out of fuel, i.e. the source's recursion terminates). -/
theorem claim_C10_content_termination :
    (∀ (fuel : Nat) (text : Str) (s d : Nat) (item : ContentItem),
      parse_content_item fuel text s d = PStep.ok item → s < item.get_endpos) ∧
    (∀ (text : Str) (s d : Nat), ∃ fuel, parse_elem fuel text s d ≠ PStep.nofuel) ∧
    (∀ (text : Str) (s d : Nat), ∃ fuel, parse_full_elem fuel text s d ≠ PStep.nofuel) ∧
    (∀ (text : Str) (s d : Nat), ∃ fuel, parse_content fuel text s d ≠ PStep.nofuel) ∧
    (∀ (text : Str) (s d : Nat), ∃ fuel, parse_content_item fuel text s d ≠ PStep.nofuel) := by
  refine ⟨?_, ?_, ?_, ?_, ?_⟩
  · intro fuel text s d item h
    exact parse_content_item_endpos h
  · intro text s d
    exact ⟨5 * (text.length + 1 - s) + 4,
      (engine_terminates text (text.length + 1 - s) s le_rfl).2.1 _ d le_rfl⟩
  · intro text s d
    exact ⟨5 * (text.length + 1 - s) + 3,
      (engine_terminates text (text.length + 1 - s) s le_rfl).1 _ d le_rfl⟩
  · intro text s d
    exact ⟨5 * (text.length + 1 - s) + 7,
      (engine_terminates text (text.length + 1 - s) s le_rfl).2.2.2.2 _ d le_rfl⟩
  · intro text s d
    exact ⟨5 * (text.length + 1 - s) + 5,
      (engine_terminates text (text.length + 1 - s) s le_rfl).2.2.1 _ d le_rfl⟩

/-- Witness for C10: on the concrete input `hi<` the content-item parser
succeeds with the character-data node `hi`, and the claim theorem instantiated
there yields the strict end-offset increase `0 < 2`. -/
theorem claim_C10_witness :
    parse_content_item 3 ('h' :: 'i' :: '<' :: []) 0 0 =
      PStep.ok (ContentItem.CharData ⟨0, ['h', 'i']⟩) ∧
    (0 : Nat) < (ContentItem.CharData ⟨0, ['h', 'i']⟩).get_endpos :=
  ⟨rfl, claim_C10_content_termination.1 3 ('h' :: 'i' :: '<' :: []) 0 0
    (ContentItem.CharData ⟨0, ['h', 'i']⟩) rfl⟩

end Xml
